import Mathlib

/-!
# Library management system: catalog store

A shallow embedding of `src/library_management.cpp` (struct `Book`, class
`Library`, and the issue / return branches of `main`) together with the
properties of the catalog store that the specification states.

Modelling conventions

* `std::string` is a list of characters (`Str`); one `Char` stands for one
  byte of the C++ string.
* `int` is `Int`; the range of the machine type is the predicate `isInt`,
  which `stoi` checks explicitly (it throws `out_of_range` outside of it).
* The file system is part of the state: the two files have a content and a
  flag telling whether opening them succeeds, so that the
  `if (!file.is_open())` branches of the source are represented.
* A function that can throw returns `Except`.
-/

namespace LibraryManagement

/-! ## Data model -/

/-- A C++ `std::string`: a sequence of bytes, each rendered as a `Char`. -/
abbrev Str := List Char

/-- The record `struct Book`. -/
structure Book where
  id : Int
  title : Str
  author : Str
  issued : Bool
  deriving DecidableEq, Repr

/-- Smallest value of the 32-bit type `int`. -/
def INT_MIN : Int := -2147483648

/-- Largest value of the 32-bit type `int`. -/
def INT_MAX : Int := 2147483647

/-- The integer is a value of the machine type `int`. -/
def isInt (n : Int) : Prop := INT_MIN ≤ n ∧ n ≤ INT_MAX

instance (n : Int) : Decidable (isInt n) := by
  unfold isInt; exact inferInstance

/-- The object `Library` with the part of the file system it touches:
`books` is the vector, `file` the content of the catalog file `filename`
(the empty text when the file does not exist yet), `history` the content
of `historyfile`, and the two flags tell whether opening the respective
file succeeds. -/
structure Library where
  books : List Book
  file : Str
  history : Str
  fileOpens : Bool
  historyOpens : Bool
  deriving DecidableEq, Repr

/-! ## Text conversions of the standard library used by the source -/

/-- The function `std::to_string(int)`: decimal digits, with a leading `-`
for a negative number. -/
def to_string (n : Int) : Str :=
  if n < 0 then '-' :: Nat.toDigits 10 n.natAbs else Nat.toDigits 10 n.toNat

/-- The predicate `isspace` of the C locale, used by `strtol` to skip
leading blanks. -/
def isspace (c : Char) : Bool :=
  c = ' ' || c = '\t' || c = '\n' || c = '\x0b' || c = '\x0c' || c = '\r'

/-- The predicate `isdigit`. -/
def isdigit (c : Char) : Bool :=
  48 ≤ c.toNat && c.toNat ≤ 57

/-- The two exceptions `std::stoi` throws. -/
inductive StoiError where
  | invalid_argument
  | out_of_range
  deriving DecidableEq, Repr

deriving instance DecidableEq for Except

/-- Value of a run of decimal digits, read from the left, starting from the
accumulator `acc`. -/
def digitsValue (acc : Nat) (ds : Str) : Nat :=
  ds.foldl (fun a c => 10 * a + (c.toNat - 48)) acc

/-- The optional sign read by `strtol`: whether the number is negative,
and the text after the sign. -/
def readSign : Str → Bool × Str
  | '-' :: r => (true, r)
  | '+' :: r => (false, r)
  | s => (false, s)

/-- The function `std::stoi(str)` (base 10): leading white space is skipped,
an optional sign is read, then the longest run of digits; what follows is
ignored. No digit: `invalid_argument`; a value that does not fit an `int`:
`out_of_range`. -/
def stoi (s : Str) : Except StoiError Int :=
  let s1 := s.dropWhile isspace
  let signed : Bool × Str := readSign s1
  let ds := signed.2.takeWhile isdigit
  if ds = [] then Except.error StoiError.invalid_argument
  else
    let v : Int := if signed.1 then -(digitsValue 0 ds : Int) else (digitsValue 0 ds : Int)
    if isInt v then Except.ok v else Except.error StoiError.out_of_range

/-- The function `std::getline(stream, str, delim)` on the rest of a stream:
`none` when the stream is exhausted (nothing extracted, the stream fails);
otherwise the characters up to the first delimiter, and the rest of the
stream after that delimiter (the delimiter is consumed and not stored). -/
def getline (delim : Char) : Str → Option (Str × Str)
  | [] => none
  | c :: cs =>
    if c = delim then some ([], cs)
    else
      match getline delim cs with
      | none => some ([c], [])
      | some (field, rest) => some (c :: field, rest)

/-- A `getline` into a freshly declared (empty) string whose result is not
tested: on failure the string stays empty and the stream stays exhausted. -/
def getfield (delim : Char) (s : Str) : Str × Str :=
  (getline delim s).getD ([], [])

/-- The lines that the loop `while (getline(file, line))` sees, in order:
the text is cut at every newline, and an empty remainder after the last
newline is not a line. -/
def fileLines : Str → List Str
  | [] => []
  | c :: cs =>
    if c = '\n' then [] :: fileLines cs
    else
      match fileLines cs with
      | [] => [[c]]
      | l :: ls => (c :: l) :: ls

/-- The function `::tolower` of the C locale: the letters `A` to `Z` are
moved to `a` to `z`, every other character is left alone. -/
def tolower (c : Char) : Char :=
  if 65 ≤ c.toNat ∧ c.toNat ≤ 90 then Char.ofNat (c.toNat + 32) else c

/-- The call `transform(s.begin(), s.end(), s.begin(), ::tolower)`. -/
def lowerStr (s : Str) : Str := s.map tolower

/-- Search of `needle` in `hay` from the position `pos` on, the work of
`std::string::find`: the smallest position at which `needle` starts. -/
def findFrom (needle : Str) : Str → Nat → Option Nat
  | [], pos => if needle.isPrefixOf [] then some pos else none
  | c :: cs, pos =>
    if needle.isPrefixOf (c :: cs) then some pos else findFrom needle cs (pos + 1)

/-- The call `hay.find(needle)`; `none` is `string::npos`. -/
def find (hay needle : Str) : Option Nat := findFrom needle hay 0

/-- The order `operator<` of `std::string` (the one `std::map` sorts its
keys by): lexicographic on the characters, a proper prefix comes first. -/
def strLt : Str → Str → Bool
  | [], [] => false
  | [], _ :: _ => true
  | _ :: _, [] => false
  | a :: as, b :: bs => a.toNat < b.toNat || (a = b && strLt as bs)

/-! ## Persistence: `loadBooks`, `saveBooks`, `logHistory` -/

/-- The body of the reading loop for one non-empty line: the four
`getline(ss, _, ',')` calls, `stoi`, and the comparison with `"1"`. -/
def parseLine (line : Str) : Except StoiError Book :=
  let f1 := getfield ',' line
  let f2 := getfield ',' f1.2
  let f3 := getfield ',' f2.2
  let f4 := getfield ',' f3.2
  match stoi f1.1 with
  | Except.error e => Except.error e
  | Except.ok id => Except.ok ⟨id, f2.1, f3.1, decide (f4.1 = ['1'])⟩

/-- The reading loop of `loadBooks` over the lines of the file: empty lines
are skipped, the first exception of `stoi` ends the loop and is
propagated. -/
def loadLoop : List Str → List Book → Except StoiError (List Book)
  | [], books => Except.ok books
  | line :: rest, books =>
    if line = [] then loadLoop rest books
    else
      match parseLine line with
      | Except.error e => Except.error e
      | Except.ok b => loadLoop rest (books ++ [b])

/-- The catalog that `loadBooks` builds from the content of an opened file
(`books.clear()` followed by the reading loop). -/
def parseBooks (content : Str) : Except StoiError (List Book) :=
  loadLoop (fileLines content) []

/-- The method `Library::loadBooks`. -/
def Library.loadBooks (L : Library) : Except StoiError Library :=
  if !L.fileOpens then Except.ok { L with books := [] }
  else
    match parseBooks L.file with
    | Except.error e => Except.error e
    | Except.ok bs => Except.ok { L with books := bs }

/-- What `saveBooks` sends to the stream for one record. -/
def bookLine (b : Book) : Str :=
  to_string b.id ++ [','] ++ b.title ++ [','] ++ b.author ++ [',']
    ++ (if b.issued then ['1'] else ['0']) ++ ['\n']

/-- The text of one record without the final newline. -/
def recordText (b : Book) : Str :=
  to_string b.id ++ [','] ++ b.title ++ [','] ++ b.author ++ [',']
    ++ (if b.issued then ['1'] else ['0'])

/-- The writing loop of `saveBooks`: the text sent to the freshly truncated
file. -/
def writeBooks (books : List Book) : Str :=
  books.foldl (fun out b => out ++ bookLine b) []

/-- The method `Library::saveBooks`. -/
def Library.saveBooks (L : Library) : Library :=
  if !L.fileOpens then L else { L with file := writeBooks L.books }

/-- The line `id,action` that `logHistory` sends to the history stream. -/
def historyEntry (id : Int) (action : Str) : Str :=
  to_string id ++ [','] ++ action ++ ['\n']

/-- The method `Library::logHistory` (the file is opened in append mode). -/
def Library.logHistory (L : Library) (id : Int) (action : Str) : Library :=
  if !L.historyOpens then L
  else { L with history := L.history ++ historyEntry id action }

/-! ## Catalog operations -/

/-- The loop of `Library::idExists`. -/
def idExists (id : Int) : List Book → Bool
  | [] => false
  | b :: bs => if b.id = id then true else idExists id bs

/-- The method `Library::idExists`. -/
def Library.idExists (L : Library) (id : Int) : Bool := LibraryManagement.idExists id L.books

/-- The method `Library::addBook`: the returned flag and the new state. -/
def Library.addBook (L : Library) (b : Book) : Bool × Library :=
  if b.title.isEmpty || b.author.isEmpty || decide (b.id ≤ 0) then (false, L)
  else if L.idExists b.id then (false, L)
  else (true, ({ L with books := L.books ++ [b] }).saveBooks)

/-- The loop of `Library::updateBook`: `none` when no record has the id,
otherwise the vector after the assignment to the first such record. -/
def updateLoop (id : Int) (title author : Str) : List Book → Option (List Book)
  | [] => none
  | b :: bs =>
    if b.id = id then
      let b1 : Book := if !title.isEmpty then { b with title := title } else b
      let b2 : Book := if !author.isEmpty then { b1 with author := author } else b1
      some (b2 :: bs)
    else (updateLoop id title author bs).map (fun r => b :: r)

/-- The method `Library::updateBook`. -/
def Library.updateBook (L : Library) (id : Int) (title author : Str) : Bool × Library :=
  match updateLoop id title author L.books with
  | some bs => (true, ({ L with books := bs }).saveBooks)
  | none => (false, L)

/-- The loop of `Library::deleteBook`: `none` when no record has the id,
otherwise the vector after `erase` of the first such record. -/
def eraseLoop (id : Int) : List Book → Option (List Book)
  | [] => none
  | b :: bs =>
    if b.id = id then some bs
    else (eraseLoop id bs).map (fun r => b :: r)

/-- The method `Library::deleteBook`. -/
def Library.deleteBook (L : Library) (id : Int) : Bool × Library :=
  match eraseLoop id L.books with
  | some bs => (true, ({ L with books := bs }).saveBooks)
  | none => (false, L)

/-- The loop of `Library::findBook`. The returned pointer into the vector
is the record it points to together with the records before and after it;
`none` is `nullptr`. -/
def findBook (id : Int) : List Book → Option (List Book × Book × List Book)
  | [] => none
  | b :: bs =>
    if b.id = id then some ([], b, bs)
    else (findBook id bs).map (fun r => (b :: r.1, r.2.1, r.2.2))

/-- The method `Library::findBook`. -/
def Library.findBook (L : Library) (id : Int) : Option (List Book × Book × List Book) :=
  LibraryManagement.findBook id L.books

/-- The loop of `Library::getAvailableBooks`; `res` is the vector built so
far. -/
def availableLoop : List Book → List Book → List Book
  | [], res => res
  | b :: bs, res =>
    if !b.issued then availableLoop bs (res ++ [b]) else availableLoop bs res

/-- The method `Library::getAvailableBooks`. -/
def Library.getAvailableBooks (L : Library) : List Book := availableLoop L.books []

/-- Outcome of the issue branch of `main`: the three answers given after an
id has been read, and `noneAvailable` for the message "No books are
available for issuing." with which the branch ends before reading an id. -/
inductive IssueResult where
  | success
  | notFound
  | alreadyIssued
  | noneAvailable
  deriving DecidableEq, Repr

/-- Outcome of the return branch of `main`. -/
inductive ReturnResult where
  | success
  | notFound
  | notIssued
  deriving DecidableEq, Repr

/-- The part of the issue branch of `main` that follows the reading of the
id (`findBook`, the two tests, the assignment through the pointer,
`saveBooks`, `logHistory`). -/
def issueRecord (L : Library) (id : Int) : IssueResult × Library :=
  match L.findBook id with
  | none => (IssueResult.notFound, L)
  | some (before, b, after) =>
    if b.issued then (IssueResult.alreadyIssued, L)
    else
      (IssueResult.success,
        (({ L with books := before ++ { b with issued := true } :: after }).saveBooks).logHistory
          id "Issued".toList)

/-- The issue branch of `main`; `id` is what the user enters when asked.
The branch first takes `getAvailableBooks()`: when that vector is empty it
reports that no books are available and ends without reading an id;
otherwise it lists the available records, reads the id and goes on with
`issueRecord`. -/
def issueBook (L : Library) (id : Int) : IssueResult × Library :=
  if L.getAvailableBooks.isEmpty then (IssueResult.noneAvailable, L)
  else issueRecord L id

/-- The return branch of `main`; `id` is what the user enters. -/
def returnBook (L : Library) (id : Int) : ReturnResult × Library :=
  match L.findBook id with
  | none => (ReturnResult.notFound, L)
  | some (before, b, after) =>
    if !b.issued then (ReturnResult.notIssued, L)
    else
      (ReturnResult.success,
        (({ L with books := before ++ { b with issued := false } :: after }).saveBooks).logHistory
          id "Returned".toList)

/-- The loop of `Library::searchBooks`, with `term` and its lower-cased
copy `termLower`; `result` is the vector built so far. -/
def searchLoop (term termLower : Str) : List Book → List Book → List Book
  | [], result => result
  | b :: bs, result =>
    let titleLower := lowerStr b.title
    let authorLower := lowerStr b.author
    if (find titleLower termLower).isSome || (find authorLower termLower).isSome
        || decide (to_string b.id = term) then
      searchLoop term termLower bs (result ++ [b])
    else searchLoop term termLower bs result

/-- The method `Library::searchBooks`. -/
def Library.searchBooks (L : Library) (term : Str) : List Book :=
  searchLoop term (lowerStr term) L.books []

/-- The operation `m[key]++` on a `std::map<string, int>`, the map being
its entries in key order: the entry of `key` is incremented where it is,
and a missing key is inserted at its place in the order with the count 1
(value-initialised to 0, then incremented). The counter never overflows:
it is at most the number of records of the vector. -/
def mapIncr (key : Str) : List (Str × Int) → List (Str × Int)
  | [] => [(key, 1)]
  | (k, v) :: rest =>
    if strLt key k then (key, 1) :: (k, v) :: rest
    else if strLt k key then (k, v) :: mapIncr key rest
    else (k, v + 1) :: rest

/-- The method `Library::getStatsByAuthor`: the entries of the returned
map, in the order of iteration. -/
def Library.getStatsByAuthor (L : Library) : List (Str × Int) :=
  L.books.foldl (fun authorCount b => mapIncr b.author authorCount) []

/-- The method `Library::getStatsByTitle`. -/
def Library.getStatsByTitle (L : Library) : List (Str × Int) :=
  L.books.foldl (fun titleCount b => mapIncr b.title titleCount) []

/-! ## Sequences of operations -/

/-- One mutating operation of the catalog store with its arguments. -/
inductive Op where
  | addBook (b : Book)
  | updateBook (id : Int) (title author : Str)
  | deleteBook (id : Int)
  | issue (id : Int)
  | giveBack (id : Int)
  deriving Repr

/-- The state after one operation, whatever it answers. -/
def step (L : Library) : Op → Library
  | Op.addBook b => (L.addBook b).2
  | Op.updateBook id title author => (L.updateBook id title author).2
  | Op.deleteBook id => (L.deleteBook id).2
  | Op.issue id => (issueBook L id).2
  | Op.giveBack id => (returnBook L id).2

/-- The state after a sequence of operations. -/
def run (L : Library) (ops : List Op) : Library := ops.foldl step L

/-- A library with no record, in an arbitrary environment. -/
def emptyLibrary (file history : Str) (fileOpens historyOpens : Bool) : Library :=
  ⟨[], file, history, fileOpens, historyOpens⟩

/-- The invariants of the data model on a vector of records: pairwise
distinct ids, positive ids, no empty title, no empty author. -/
def CatalogInv (books : List Book) : Prop :=
  (books.map Book.id).Nodup ∧ ∀ b ∈ books, 0 < b.id ∧ b.title ≠ [] ∧ b.author ≠ []

/-- The record `b` is the first record of `books` with the id `id`; `before`
and `after` are the records in front of it and behind it. When the ids are
pairwise distinct it is the only record with that id. -/
def FirstWithId (books : List Book) (id : Int) (before : List Book) (b : Book)
    (after : List Book) : Prop :=
  books = before ++ b :: after ∧ b.id = id ∧ ∀ x ∈ before, x.id ≠ id

/-- The keys of a map are in strictly increasing order of `strLt`. -/
def KeysSorted (m : List (Str × Int)) : Prop :=
  (m.map Prod.fst).Pairwise (fun a b => strLt a b = true)

/-- The record can be written as one line and read back: its id is a
machine `int`, and neither its title nor its author contains a comma or a
newline. -/
def CleanBook (b : Book) : Prop :=
  isInt b.id ∧ ',' ∉ b.title ∧ ',' ∉ b.author ∧ '\n' ∉ b.title ∧ '\n' ∉ b.author

/-! ## The embedding on concrete inputs -/

theorem to_string_examples :
    to_string 42 = "42".toList ∧ to_string (-7) = "-7".toList ∧ to_string 0 = "0".toList
      ∧ to_string INT_MIN = "-2147483648".toList := by
  decide

theorem stoi_examples :
    stoi " -12x".toList = Except.ok (-12)
      ∧ stoi "+7".toList = Except.ok 7
      ∧ stoi "x".toList = Except.error StoiError.invalid_argument
      ∧ stoi [] = Except.error StoiError.invalid_argument
      ∧ stoi "2147483648".toList = Except.error StoiError.out_of_range
      ∧ stoi "-2147483648".toList = Except.ok INT_MIN := by
  decide

theorem fileLines_examples :
    fileLines "a\n\nb".toList = ["a".toList, [], "b".toList]
      ∧ fileLines "a\n".toList = ["a".toList]
      ∧ fileLines "\n".toList = [[]]
      ∧ fileLines [] = [] := by
  decide

theorem find_examples :
    find "hello".toList "ll".toList = some 2
      ∧ find "hello".toList "l".toList = some 2
      ∧ find "hello".toList [] = some 0
      ∧ find [] [] = some 0
      ∧ find "hello".toList "lo!".toList = none := by
  decide

theorem lowerStr_example : lowerStr "SmiTH 42".toList = "smith 42".toList := by
  decide

theorem parseLine_examples :
    parseLine "12,Dune,Herbert,1".toList
        = Except.ok ⟨12, "Dune".toList, "Herbert".toList, true⟩
      ∧ parseLine "12,Dune".toList = Except.ok ⟨12, "Dune".toList, [], false⟩
      ∧ parseLine "12,Dune,Herbert,1,9".toList
        = Except.ok ⟨12, "Dune".toList, "Herbert".toList, true⟩
      ∧ parseLine "Dune,12".toList = Except.error StoiError.invalid_argument
      ∧ parseLine "99999999999,a,b,0".toList = Except.error StoiError.out_of_range := by
  decide

theorem writeBooks_example :
    writeBooks [⟨1, "Dune".toList, "Herbert".toList, false⟩,
        ⟨2, "Emma".toList, "Austen".toList, true⟩]
      = "1,Dune,Herbert,0\n2,Emma,Austen,1\n".toList := by
  decide

/-- The scenario of the specification: add, duplicate add, issue, second
issue (the only record being issued, the branch ends with the message that
no books are available), return, delete. -/
theorem scenario_example :
    let dune : Book := ⟨1, "Dune".toList, "Herbert".toList, false⟩
    let l0 := emptyLibrary [] [] true true
    let l1 := (l0.addBook dune).2
    let l2 := (issueBook l1 1).2
    let l3 := (returnBook l2 1).2
    (l0.addBook dune).1 = true
      ∧ (l1.addBook dune).1 = false
      ∧ (issueBook l1 1).1 = IssueResult.success
      ∧ l2.books = [⟨1, "Dune".toList, "Herbert".toList, true⟩]
      ∧ l2.file = "1,Dune,Herbert,1\n".toList
      ∧ (issueBook l2 1).1 = IssueResult.noneAvailable
      ∧ (issueBook l2 1).2 = l2
      ∧ (issueRecord l2 1).1 = IssueResult.alreadyIssued
      ∧ (returnBook l2 1).1 = ReturnResult.success
      ∧ l3.history = "1,Issued\n1,Returned\n".toList
      ∧ (l3.deleteBook 1).1 = true
      ∧ (l3.deleteBook 1).2.books = [] := by
  decide

/-! ## Basic facts about the loops -/

theorem saveBooks_books (L : Library) : L.saveBooks.books = L.books := by
  unfold Library.saveBooks
  split <;> rfl

theorem saveBooks_history (L : Library) : L.saveBooks.history = L.history := by
  unfold Library.saveBooks
  split <;> rfl

theorem saveBooks_historyOpens (L : Library) : L.saveBooks.historyOpens = L.historyOpens := by
  unfold Library.saveBooks
  split <;> rfl

theorem logHistory_books (L : Library) (id : Int) (action : Str) :
    (L.logHistory id action).books = L.books := by
  unfold Library.logHistory
  split <;> rfl

theorem idExists_iff (id : Int) (books : List Book) :
    idExists id books = true ↔ ∃ x ∈ books, x.id = id := by
  induction books with
  | nil => simp [idExists]
  | cons b bs ih =>
    unfold idExists
    by_cases h : b.id = id
    · simp [h]
    · simp [h, ih]

theorem idExists_eq_false_iff (id : Int) (books : List Book) :
    idExists id books = false ↔ ∀ x ∈ books, x.id ≠ id := by
  rw [← Bool.not_eq_true, idExists_iff]
  simp

/-! ## C3: `addBook` -/

/-- C3. `addBook` answers `false` exactly when the title is empty, or the
author is empty, or the id is not positive, or some record of the catalog
already has the id; a rejected call leaves the whole state (the vector, the
catalog file, the history file) as it was; an accepted call leaves the
vector equal to the old one followed by the given record. -/
theorem addBook_spec (L : Library) (b : Book) :
    ((L.addBook b).1 = false ↔
        (b.title = [] ∨ b.author = [] ∨ b.id ≤ 0 ∨ ∃ x ∈ L.books, x.id = b.id))
    ∧ ((L.addBook b).1 = false → (L.addBook b).2 = L)
    ∧ ((L.addBook b).1 = true → (L.addBook b).2.books = L.books ++ [b]) := by
  unfold Library.addBook
  by_cases h1 : (b.title.isEmpty || b.author.isEmpty || decide (b.id ≤ 0)) = true
  · rw [if_pos h1]
    refine ⟨⟨fun _ => ?_, fun _ => rfl⟩, fun _ => rfl, fun h => ?_⟩
    · simp only [Bool.or_eq_true, List.isEmpty_iff, decide_eq_true_eq] at h1
      rcases h1 with (h | h) | h
      · exact Or.inl h
      · exact Or.inr (Or.inl h)
      · exact Or.inr (Or.inr (Or.inl h))
    · simp at h
  · rw [if_neg h1]
    simp only [Bool.or_eq_true, List.isEmpty_iff, decide_eq_true_eq, not_or] at h1
    obtain ⟨⟨ht, ha⟩, hid⟩ := h1
    by_cases h2 : L.idExists b.id = true
    · rw [if_pos h2]
      refine ⟨⟨fun _ => ?_, fun _ => rfl⟩, fun _ => rfl, fun h => ?_⟩
      · exact Or.inr (Or.inr (Or.inr ((idExists_iff _ _).1 h2)))
      · simp at h
    · rw [if_neg h2]
      refine ⟨⟨fun h => ?_, fun h => ?_⟩, fun h => ?_, fun _ => ?_⟩
      · simp at h
      · rcases h with h | h | h | h
        · exact absurd h ht
        · exact absurd h ha
        · exact absurd h hid
        · exact absurd ((idExists_iff _ _).2 h) h2
      · simp at h
      · simp [saveBooks_books]

/-- C3, at a concrete state: the second `addBook` of the id 1 is rejected
and changes nothing. -/
theorem addBook_spec_witness :
    ((⟨[⟨1, "Dune".toList, "Herbert".toList, false⟩], [], [], true, true⟩ : Library).addBook
        ⟨1, "Emma".toList, "Austen".toList, false⟩).2
      = ⟨[⟨1, "Dune".toList, "Herbert".toList, false⟩], [], [], true, true⟩ :=
  (addBook_spec ⟨[⟨1, "Dune".toList, "Herbert".toList, false⟩], [], [], true, true⟩
    ⟨1, "Emma".toList, "Austen".toList, false⟩).2.1 (by decide)

/-! ## The first record with a given id -/

theorem exists_firstWithId (id : Int) (books : List Book) (h : ∃ x ∈ books, x.id = id) :
    ∃ before b after, FirstWithId books id before b after := by
  induction books with
  | nil => simp at h
  | cons c cs ih =>
    by_cases hc : c.id = id
    · exact ⟨[], c, cs, rfl, hc, by simp⟩
    · have h2 : ∃ x ∈ cs, x.id = id := by
        obtain ⟨x, hx, hxid⟩ := h
        rcases List.mem_cons.1 hx with rfl | hx
        · exact absurd hxid hc
        · exact ⟨x, hx, hxid⟩
      obtain ⟨before, b, after, hb, hid, hpre⟩ := ih h2
      refine ⟨c :: before, b, after, by simp [hb], hid, ?_⟩
      intro x hx
      rcases List.mem_cons.1 hx with rfl | hx
      · exact hc
      · exact hpre x hx

theorem firstWithId_unique {id : Int} {books before before2 after after2 : List Book}
    {b b2 : Book} (h : FirstWithId books id before b after)
    (h2 : FirstWithId books id before2 b2 after2) :
    before = before2 ∧ b = b2 ∧ after = after2 := by
  induction books generalizing before before2 with
  | nil =>
    have := h.1
    simp at this
  | cons c cs ih =>
    obtain ⟨hb, hid, hpre⟩ := h
    obtain ⟨hb2, hid2, hpre2⟩ := h2
    cases before with
    | nil =>
      cases before2 with
      | nil =>
        simp only [List.nil_append, List.cons.injEq] at hb hb2
        exact ⟨rfl, hb.1.symm.trans hb2.1, hb.2.symm.trans hb2.2⟩
      | cons d ds =>
        simp only [List.nil_append, List.cons_append, List.cons.injEq] at hb hb2
        have : d.id ≠ id := hpre2 d (by simp)
        rw [← hb2.1, hb.1] at this
        exact absurd hid this
    | cons e es =>
      cases before2 with
      | nil =>
        simp only [List.nil_append, List.cons_append, List.cons.injEq] at hb hb2
        have : e.id ≠ id := hpre e (by simp)
        rw [← hb.1, hb2.1] at this
        exact absurd hid2 this
      | cons d ds =>
        simp only [List.cons_append, List.cons.injEq] at hb hb2
        have r := @ih es ds
          ⟨hb.2, hid, fun x hx => hpre x (by simp [hx])⟩
          ⟨hb2.2, hid2, fun x hx => hpre2 x (by simp [hx])⟩
        exact ⟨by rw [← hb.1, ← hb2.1, r.1], r.2.1, r.2.2⟩

theorem findBook_eq_none_iff (id : Int) (books : List Book) :
    findBook id books = none ↔ ∀ x ∈ books, x.id ≠ id := by
  induction books with
  | nil => simp [findBook]
  | cons c cs ih =>
    unfold findBook
    by_cases hc : c.id = id
    · simp [hc]
    · simp [hc, ih]

theorem findBook_of_first {id : Int} {books before after : List Book} {b : Book}
    (h : FirstWithId books id before b after) :
    findBook id books = some (before, b, after) := by
  obtain ⟨hb, hid, hpre⟩ := h
  subst hb
  induction before with
  | nil => simp [findBook, hid]
  | cons c cs ih =>
    have hc : c.id ≠ id := hpre c (by simp)
    have := ih (fun x hx => hpre x (by simp [hx]))
    simp [findBook, hc, this]

theorem first_of_findBook {id : Int} {books before after : List Book} {b : Book}
    (h : findBook id books = some (before, b, after)) :
    FirstWithId books id before b after := by
  have hex : ∃ x ∈ books, x.id = id := by
    by_contra hne
    have : findBook id books = none :=
      (findBook_eq_none_iff id books).2 (fun x hx hxid => hne ⟨x, hx, hxid⟩)
    rw [this] at h
    cases h
  obtain ⟨p, c, q, hf⟩ := exists_firstWithId id books hex
  have := findBook_of_first hf
  rw [this] at h
  cases h
  exact hf

theorem updateLoop_eq_none_iff (id : Int) (title author : Str) (books : List Book) :
    updateLoop id title author books = none ↔ ∀ x ∈ books, x.id ≠ id := by
  induction books with
  | nil => simp [updateLoop]
  | cons c cs ih =>
    unfold updateLoop
    by_cases hc : c.id = id
    · simp [hc]
    · simp [hc, ih]

theorem updateLoop_of_first {id : Int} (title author : Str) {books before after : List Book}
    {b : Book} (h : FirstWithId books id before b after) :
    updateLoop id title author books =
      some (before ++
        { b with title := if title = [] then b.title else title,
                 author := if author = [] then b.author else author } :: after) := by
  obtain ⟨hb, hid, hpre⟩ := h
  subst hb
  induction before with
  | nil =>
    subst hid
    cases title <;> cases author <;> simp [updateLoop]
  | cons c cs ih =>
    have hc : c.id ≠ id := hpre c (by simp)
    have := ih (fun x hx => hpre x (by simp [hx]))
    simp [updateLoop, hc, this]

theorem eraseLoop_eq_none_iff (id : Int) (books : List Book) :
    eraseLoop id books = none ↔ ∀ x ∈ books, x.id ≠ id := by
  induction books with
  | nil => simp [eraseLoop]
  | cons c cs ih =>
    unfold eraseLoop
    by_cases hc : c.id = id
    · simp [hc]
    · simp [hc, ih]

theorem eraseLoop_of_first {id : Int} {books before after : List Book} {b : Book}
    (h : FirstWithId books id before b after) :
    eraseLoop id books = some (before ++ after) := by
  obtain ⟨hb, hid, hpre⟩ := h
  subst hb
  induction before with
  | nil => simp [eraseLoop, hid]
  | cons c cs ih =>
    have hc : c.id ≠ id := hpre c (by simp)
    have := ih (fun x hx => hpre x (by simp [hx]))
    simp [eraseLoop, hc, this]

theorem eq_first_of_nodup {id : Int} {books before after : List Book} {b x : Book}
    (hn : (books.map Book.id).Nodup) (h : FirstWithId books id before b after)
    (hx : x ∈ books) (hxid : x.id = id) : x = b := by
  obtain ⟨hb, hid, hpre⟩ := h
  subst hb
  rcases List.mem_append.1 hx with hx | hx
  · exact absurd hxid (hpre x hx)
  · rcases List.mem_cons.1 hx with rfl | hx
    · rfl
    · exfalso
      rw [List.map_append, List.map_cons] at hn
      have h2 := (List.nodup_cons.1 (List.nodup_append.1 hn).2.1).1
      apply h2
      rw [hid, ← hxid]
      exact List.mem_map_of_mem _ hx

theorem not_mem_after_of_nodup {id : Int} {books before after : List Book} {b : Book}
    (hn : (books.map Book.id).Nodup) (h : FirstWithId books id before b after) :
    ∀ x ∈ after, x.id ≠ id := by
  intro x hx hxid
  obtain ⟨hb, hid, _⟩ := h
  subst hb
  rw [List.map_append, List.map_cons] at hn
  have h2 := (List.nodup_cons.1 (List.nodup_append.1 hn).2.1).1
  apply h2
  rw [hid, ← hxid]
  exact List.mem_map_of_mem _ hx

/-! ## C5: `updateBook` -/

/-- C5. When a record with the id is present and the author text `a` is not
empty, `updateBook(id, "", a)` answers `true` and the new vector is the old
one with the author of the first record of that id replaced by `a`, nothing
else touched; `updateBook(id, "", "")` answers `true` and leaves the vector
as it was; when no record has the id, `updateBook` answers `false` and
leaves the whole state as it was. -/
theorem updateBook_spec (L : Library) (id : Int) :
    ((∃ x ∈ L.books, x.id = id) → ∀ a : Str, a ≠ [] →
        (L.updateBook id [] a).1 = true
        ∧ ∃ before b after, FirstWithId L.books id before b after
            ∧ (L.updateBook id [] a).2.books = before ++ { b with author := a } :: after)
    ∧ ((∃ x ∈ L.books, x.id = id) →
        (L.updateBook id [] []).1 = true ∧ (L.updateBook id [] []).2.books = L.books)
    ∧ ((∀ x ∈ L.books, x.id ≠ id) → ∀ t a : Str, L.updateBook id t a = (false, L)) := by
  refine ⟨fun hex a ha => ?_, fun hex => ?_, fun hno t a => ?_⟩
  · obtain ⟨before, b, after, hf⟩ := exists_firstWithId id L.books hex
    have hu := updateLoop_of_first [] a hf
    unfold Library.updateBook
    rw [hu]
    refine ⟨rfl, before, b, after, hf, ?_⟩
    simp [saveBooks_books, ha]
  · obtain ⟨before, b, after, hf⟩ := exists_firstWithId id L.books hex
    have hu := updateLoop_of_first [] [] hf
    unfold Library.updateBook
    rw [hu]
    refine ⟨rfl, ?_⟩
    simp [saveBooks_books, hf.1]
  · have hu := (updateLoop_eq_none_iff id t a L.books).2 hno
    unfold Library.updateBook
    rw [hu]

/-- C5, at a concrete state: only the author of the record 2 changes. -/
theorem updateBook_spec_witness :
    ((⟨[⟨1, "Dune".toList, "Herbert".toList, true⟩, ⟨2, "Emma".toList, "Austin".toList, true⟩],
        [], [], true, true⟩ : Library).updateBook 2 [] "Austen".toList).1 = true
    ∧ ∃ before b after,
        FirstWithId [⟨1, "Dune".toList, "Herbert".toList, true⟩,
          ⟨2, "Emma".toList, "Austin".toList, true⟩] 2 before b after
        ∧ ((⟨[⟨1, "Dune".toList, "Herbert".toList, true⟩,
              ⟨2, "Emma".toList, "Austin".toList, true⟩],
            [], [], true, true⟩ : Library).updateBook 2 [] "Austen".toList).2.books
          = before ++ { b with author := "Austen".toList } :: after :=
  (updateBook_spec
    ⟨[⟨1, "Dune".toList, "Herbert".toList, true⟩, ⟨2, "Emma".toList, "Austin".toList, true⟩],
      [], [], true, true⟩ 2).1
    ⟨⟨2, "Emma".toList, "Austin".toList, true⟩, by simp, rfl⟩ "Austen".toList (by decide)

/-! ## C8: `deleteBook` -/

/-- C8. `deleteBook(id)` answers `true` exactly when a record with the id is
present; then, for a vector with pairwise distinct ids, the new vector has
no record of that id (`idExists` is false) and is the old vector without
the records of that id, the others unchanged and in their order; when it
answers `false` the whole state is as it was. -/
theorem deleteBook_spec (L : Library) (id : Int) :
    ((L.deleteBook id).1 = true ↔ ∃ x ∈ L.books, x.id = id)
    ∧ ((L.deleteBook id).1 = true → (L.books.map Book.id).Nodup →
        (L.deleteBook id).2.idExists id = false
        ∧ (L.deleteBook id).2.books = L.books.filter (fun x => decide (x.id ≠ id)))
    ∧ ((L.deleteBook id).1 = false → (L.deleteBook id).2 = L) := by
  by_cases hex : ∃ x ∈ L.books, x.id = id
  · obtain ⟨before, b, after, hf⟩ := exists_firstWithId id L.books hex
    have he := eraseLoop_of_first hf
    have hd : L.deleteBook id = (true, ({ L with books := before ++ after }).saveBooks) := by
      unfold Library.deleteBook
      rw [he]
    rw [hd]
    refine ⟨⟨fun _ => hex, fun _ => rfl⟩, fun _ hn => ?_, fun h => by simp at h⟩
    have hafter := not_mem_after_of_nodup hn hf
    have hbefore := hf.2.2
    have hfb : before.filter (fun x => decide (x.id ≠ id)) = before :=
      List.filter_eq_self.2 (fun x hx => by simpa using hbefore x hx)
    have hfa : after.filter (fun x => decide (x.id ≠ id)) = after :=
      List.filter_eq_self.2 (fun x hx => by simpa using hafter x hx)
    constructor
    · unfold Library.idExists
      rw [idExists_eq_false_iff]
      intro x hx
      simp only [saveBooks_books, List.mem_append] at hx
      rcases hx with hx | hx
      · exact hbefore x hx
      · exact hafter x hx
    · simp only [saveBooks_books]
      rw [hf.1, List.filter_append, List.filter_cons, hfb, hfa]
      simp [hf.2.1]
  · have hno : ∀ x ∈ L.books, x.id ≠ id := fun x hx hxid => hex ⟨x, hx, hxid⟩
    have he := (eraseLoop_eq_none_iff id L.books).2 hno
    have hd : L.deleteBook id = (false, L) := by
      unfold Library.deleteBook
      rw [he]
    rw [hd]
    exact ⟨⟨fun h => by simp at h, fun h => absurd h hex⟩, fun h => by simp at h, fun _ => rfl⟩

/-- C8, at a concrete state with distinct ids: after `deleteBook(2)` the id
2 is gone and the records 1 and 3 remain in order. -/
theorem deleteBook_spec_witness :
    ((⟨[⟨1, "A".toList, "X".toList, false⟩, ⟨2, "B".toList, "Y".toList, true⟩,
          ⟨3, "C".toList, "Z".toList, false⟩], [], [], true, true⟩ : Library).deleteBook 2).2.idExists 2
        = false
    ∧ ((⟨[⟨1, "A".toList, "X".toList, false⟩, ⟨2, "B".toList, "Y".toList, true⟩,
          ⟨3, "C".toList, "Z".toList, false⟩], [], [], true, true⟩ : Library).deleteBook 2).2.books
        = ([⟨1, "A".toList, "X".toList, false⟩, ⟨2, "B".toList, "Y".toList, true⟩,
          ⟨3, "C".toList, "Z".toList, false⟩] : List Book).filter (fun x => decide (x.id ≠ 2)) :=
  (deleteBook_spec ⟨[⟨1, "A".toList, "X".toList, false⟩, ⟨2, "B".toList, "Y".toList, true⟩,
      ⟨3, "C".toList, "Z".toList, false⟩], [], [], true, true⟩ 2).2.1 (by decide) (by decide)

/-! ## C4: issue and return -/

theorem logHistory_history (L : Library) (id : Int) (action : Str) :
    (L.logHistory id action).history
      = if L.historyOpens then L.history ++ historyEntry id action else L.history := by
  unfold Library.logHistory
  cases L.historyOpens <;> simp

theorem availableLoop_eq_filter (books res : List Book) :
    availableLoop books res = res ++ books.filter (fun b => !b.issued) := by
  induction books generalizing res with
  | nil => simp [availableLoop]
  | cons b bs ih =>
    unfold availableLoop
    cases hb : b.issued
    · simp [ih, hb]
    · simp [ih, hb]

theorem getAvailableBooks_isEmpty_iff (L : Library) :
    L.getAvailableBooks.isEmpty = true ↔ ∀ x ∈ L.books, x.issued = true := by
  unfold Library.getAvailableBooks
  rw [availableLoop_eq_filter, List.isEmpty_iff]
  simp [List.filter_eq_nil_iff]

theorem issueBook_of_none_available (L : Library) (id : Int)
    (h : ∀ x ∈ L.books, x.issued = true) : issueBook L id = (IssueResult.noneAvailable, L) := by
  unfold issueBook
  rw [if_pos ((getAvailableBooks_isEmpty_iff L).2 h)]

theorem issueBook_of_available (L : Library) (id : Int)
    (h : ∃ x ∈ L.books, x.issued = false) : issueBook L id = issueRecord L id := by
  unfold issueBook
  rw [if_neg]
  rw [getAvailableBooks_isEmpty_iff]
  intro hall
  obtain ⟨x, hx, hxi⟩ := h
  rw [hall x hx] at hxi
  cases hxi

theorem issueRecord_returnBook_cases (L : Library) (id : Int) :
    (((∀ x ∈ L.books, x.id ≠ id) → issueRecord L id = (IssueResult.notFound, L))
      ∧ (∀ before b after, FirstWithId L.books id before b after →
          (b.issued = true → issueRecord L id = (IssueResult.alreadyIssued, L))
          ∧ (b.issued = false →
              (issueRecord L id).1 = IssueResult.success
              ∧ (issueRecord L id).2.books = before ++ { b with issued := true } :: after
              ∧ (issueRecord L id).2.history
                  = if L.historyOpens then L.history ++ historyEntry id "Issued".toList
                    else L.history))
      ∧ ((issueRecord L id).1 = IssueResult.success ↔
          ∃ before b after, FirstWithId L.books id before b after ∧ b.issued = false)
      ∧ ((L.books.map Book.id).Nodup →
          ((issueRecord L id).1 = IssueResult.success ↔
            ∃ b ∈ L.books, b.id = id ∧ b.issued = false)))
    ∧ (((∀ x ∈ L.books, x.id ≠ id) → returnBook L id = (ReturnResult.notFound, L))
      ∧ (∀ before b after, FirstWithId L.books id before b after →
          (b.issued = false → returnBook L id = (ReturnResult.notIssued, L))
          ∧ (b.issued = true →
              (returnBook L id).1 = ReturnResult.success
              ∧ (returnBook L id).2.books = before ++ { b with issued := false } :: after
              ∧ (returnBook L id).2.history
                  = if L.historyOpens then L.history ++ historyEntry id "Returned".toList
                    else L.history))
      ∧ ((returnBook L id).1 = ReturnResult.success ↔
          ∃ before b after, FirstWithId L.books id before b after ∧ b.issued = true)
      ∧ ((L.books.map Book.id).Nodup →
          ((returnBook L id).1 = ReturnResult.success ↔
            ∃ b ∈ L.books, b.id = id ∧ b.issued = true))) := by
  by_cases hex : ∃ x ∈ L.books, x.id = id
  · obtain ⟨p, c, q, hf⟩ := exists_firstWithId id L.books hex
    have hfind : L.findBook id = some (p, c, q) := findBook_of_first hf
    have hmem : c ∈ L.books := by rw [hf.1]; simp
    cases hc : c.issued with
    | false =>
      have hi : issueRecord L id = (IssueResult.success,
          (({ L with books := p ++ { c with issued := true } :: q }).saveBooks).logHistory
            id "Issued".toList) := by
        unfold issueRecord
        rw [hfind]
        simp [hc]
      have hr : returnBook L id = (ReturnResult.notIssued, L) := by
        unfold returnBook
        rw [hfind]
        simp [hc]
      rw [hi, hr]
      refine ⟨⟨fun hno => absurd hf.2.1 (hno c hmem), ?_, ?_, ?_⟩,
        ⟨fun hno => absurd hf.2.1 (hno c hmem), ?_, ?_, ?_⟩⟩
      · intro before b after hf2
        obtain ⟨rfl, rfl, rfl⟩ := firstWithId_unique hf hf2
        refine ⟨fun h => (by rw [hc] at h; cases h), fun _ => ⟨rfl, ?_, ?_⟩⟩
        · simp [logHistory_books, saveBooks_books]
        · simp [logHistory_history, saveBooks_history, saveBooks_historyOpens]
      · exact ⟨fun _ => ⟨p, c, q, hf, hc⟩, fun _ => rfl⟩
      · intro _
        exact ⟨fun _ => ⟨c, hmem, hf.2.1, hc⟩, fun _ => rfl⟩
      · intro before b after hf2
        obtain ⟨rfl, rfl, rfl⟩ := firstWithId_unique hf hf2
        exact ⟨fun _ => rfl, fun h => by rw [hc] at h; cases h⟩
      · refine ⟨fun h => by simp at h, fun h => ?_⟩
        obtain ⟨before, b, after, hf2, hb⟩ := h
        obtain ⟨rfl, rfl, rfl⟩ := firstWithId_unique hf hf2
        rw [hc] at hb
        cases hb
      · intro hn
        refine ⟨fun h => by simp at h, fun h => ?_⟩
        obtain ⟨x, hx, hxid, hxi⟩ := h
        have := eq_first_of_nodup hn hf hx hxid
        subst this
        rw [hc] at hxi
        cases hxi
    | true =>
      have hi : issueRecord L id = (IssueResult.alreadyIssued, L) := by
        unfold issueRecord
        rw [hfind]
        simp [hc]
      have hr : returnBook L id = (ReturnResult.success,
          (({ L with books := p ++ { c with issued := false } :: q }).saveBooks).logHistory
            id "Returned".toList) := by
        unfold returnBook
        rw [hfind]
        simp [hc]
      rw [hi, hr]
      refine ⟨⟨fun hno => absurd hf.2.1 (hno c hmem), ?_, ?_, ?_⟩,
        ⟨fun hno => absurd hf.2.1 (hno c hmem), ?_, ?_, ?_⟩⟩
      · intro before b after hf2
        obtain ⟨rfl, rfl, rfl⟩ := firstWithId_unique hf hf2
        exact ⟨fun _ => rfl, fun h => by rw [hc] at h; cases h⟩
      · refine ⟨fun h => by simp at h, fun h => ?_⟩
        obtain ⟨before, b, after, hf2, hb⟩ := h
        obtain ⟨rfl, rfl, rfl⟩ := firstWithId_unique hf hf2
        rw [hc] at hb
        cases hb
      · intro hn
        refine ⟨fun h => by simp at h, fun h => ?_⟩
        obtain ⟨x, hx, hxid, hxi⟩ := h
        have := eq_first_of_nodup hn hf hx hxid
        subst this
        rw [hc] at hxi
        cases hxi
      · intro before b after hf2
        obtain ⟨rfl, rfl, rfl⟩ := firstWithId_unique hf hf2
        refine ⟨fun h => (by rw [hc] at h; cases h), fun _ => ⟨rfl, ?_, ?_⟩⟩
        · simp [logHistory_books, saveBooks_books]
        · simp [logHistory_history, saveBooks_history, saveBooks_historyOpens]
      · exact ⟨fun _ => ⟨p, c, q, hf, hc⟩, fun _ => rfl⟩
      · intro _
        exact ⟨fun _ => ⟨c, hmem, hf.2.1, hc⟩, fun _ => rfl⟩
  · have hno : ∀ x ∈ L.books, x.id ≠ id := fun x hx hxid => hex ⟨x, hx, hxid⟩
    have hfind : L.findBook id = none := (findBook_eq_none_iff id L.books).2 hno
    have hi : issueRecord L id = (IssueResult.notFound, L) := by
      unfold issueRecord
      rw [hfind]
    have hr : returnBook L id = (ReturnResult.notFound, L) := by
      unfold returnBook
      rw [hfind]
    rw [hi, hr]
    have hnf : ∀ before b after, ¬ FirstWithId L.books id before b after := by
      intro before b after hf
      exact hno b (by rw [hf.1]; simp) hf.2.1
    refine ⟨⟨fun _ => rfl, fun before b after hf => absurd hf (hnf _ _ _), ?_, fun _ => ?_⟩,
      ⟨fun _ => rfl, fun before b after hf => absurd hf (hnf _ _ _), ?_, fun _ => ?_⟩⟩
    · exact ⟨fun h => by simp at h, fun ⟨_, _, _, hf, _⟩ => absurd hf (hnf _ _ _)⟩
    · exact ⟨fun h => by simp at h, fun ⟨x, hx, hxid, _⟩ => absurd hxid (hno x hx)⟩
    · exact ⟨fun h => by simp at h, fun ⟨_, _, _, hf, _⟩ => absurd hf (hnf _ _ _)⟩
    · exact ⟨fun h => by simp at h, fun ⟨x, hx, hxid, _⟩ => absurd hxid (hno x hx)⟩

/-- C4, as stated, fails, in two ways. With a history file that cannot be
opened, issuing the available record 1 succeeds and no entry is appended to
the log. And when the only record is issued, the issue branch does not
answer `alreadyIssued` for its id, nor `notFound` for another id: it ends
with the message that no books are available. -/
theorem issue_appends_entry_counterexample :
    ((issueBook ⟨[⟨1, "Dune".toList, "Herbert".toList, false⟩], [], [], true, false⟩ 1).1
        = IssueResult.success
      ∧ (issueBook ⟨[⟨1, "Dune".toList, "Herbert".toList, false⟩], [], [], true, false⟩
            1).2.history
          ≠ ([] : Str) ++ historyEntry 1 "Issued".toList)
    ∧ ((issueBook ⟨[⟨1, "Dune".toList, "Herbert".toList, true⟩], [], [], true, true⟩ 1).1
        = IssueResult.noneAvailable
      ∧ (issueBook ⟨[⟨1, "Dune".toList, "Herbert".toList, true⟩], [], [], true, true⟩ 1).1
        ≠ IssueResult.alreadyIssued
      ∧ (issueBook ⟨[⟨1, "Dune".toList, "Herbert".toList, true⟩], [], [], true, true⟩ 2).1
        ≠ IssueResult.notFound
      ∧ (issueBook ⟨[], [], [], true, true⟩ 2).1 ≠ IssueResult.notFound) := by
  decide

/-- C4, amended. Issue(id) acts on the first record with the id (the only
one when ids are distinct). It succeeds exactly when that record exists and
is not issued; then the vector is the old one with the `issued` flag of
that record set, and the history log gets exactly the one entry `id,Issued`
appended when the history file can be opened, and is left as it was when it
cannot. When no record of the catalog is available (the catalog is empty or
every record is issued) the branch ends with `noneAvailable` before an id
is read, and the state is as it was. When some record is available: no
record with the id gives `notFound`, and an issued record with the id gives
`alreadyIssued`, the state being as it was in both cases. Return(id) has no
such early exit: no record with the id gives `notFound`, a record that is
not issued gives `notIssued`, both with the state as it was, and an issued
record gives success with the flag cleared and the entry `id,Returned`
appended when the history file can be opened. -/
theorem issue_return_exclusive (L : Library) (id : Int) :
    (((∀ x ∈ L.books, x.issued = true) → issueBook L id = (IssueResult.noneAvailable, L))
      ∧ ((∃ x ∈ L.books, x.issued = false) →
          ((∀ x ∈ L.books, x.id ≠ id) → issueBook L id = (IssueResult.notFound, L))
          ∧ (∀ before b after, FirstWithId L.books id before b after → b.issued = true →
              issueBook L id = (IssueResult.alreadyIssued, L)))
      ∧ (∀ before b after, FirstWithId L.books id before b after → b.issued = false →
          (issueBook L id).1 = IssueResult.success
          ∧ (issueBook L id).2.books = before ++ { b with issued := true } :: after
          ∧ (issueBook L id).2.history
              = if L.historyOpens then L.history ++ historyEntry id "Issued".toList
                else L.history)
      ∧ ((issueBook L id).1 = IssueResult.success ↔
          ∃ before b after, FirstWithId L.books id before b after ∧ b.issued = false)
      ∧ ((L.books.map Book.id).Nodup →
          ((issueBook L id).1 = IssueResult.success ↔
            ∃ b ∈ L.books, b.id = id ∧ b.issued = false)))
    ∧ (((∀ x ∈ L.books, x.id ≠ id) → returnBook L id = (ReturnResult.notFound, L))
      ∧ (∀ before b after, FirstWithId L.books id before b after →
          (b.issued = false → returnBook L id = (ReturnResult.notIssued, L))
          ∧ (b.issued = true →
              (returnBook L id).1 = ReturnResult.success
              ∧ (returnBook L id).2.books = before ++ { b with issued := false } :: after
              ∧ (returnBook L id).2.history
                  = if L.historyOpens then L.history ++ historyEntry id "Returned".toList
                    else L.history))
      ∧ ((returnBook L id).1 = ReturnResult.success ↔
          ∃ before b after, FirstWithId L.books id before b after ∧ b.issued = true)
      ∧ ((L.books.map Book.id).Nodup →
          ((returnBook L id).1 = ReturnResult.success ↔
            ∃ b ∈ L.books, b.id = id ∧ b.issued = true))) := by
  obtain ⟨⟨hnf, hfirst, hiff, hnodup⟩, hret⟩ := issueRecord_returnBook_cases L id
  refine ⟨⟨issueBook_of_none_available L id, ?_, ?_, ?_, ?_⟩, hret⟩
  · intro hav
    rw [issueBook_of_available L id hav]
    exact ⟨hnf, fun before b after hf hb => (hfirst before b after hf).1 hb⟩
  · intro before b after hf hb
    have hav : ∃ x ∈ L.books, x.issued = false := ⟨b, by rw [hf.1]; simp, hb⟩
    rw [issueBook_of_available L id hav]
    exact (hfirst before b after hf).2 hb
  · by_cases hav : ∃ x ∈ L.books, x.issued = false
    · rw [issueBook_of_available L id hav]
      exact hiff
    · have hall : ∀ x ∈ L.books, x.issued = true := by
        intro x hx
        cases hxi : x.issued
        · exact absurd ⟨x, hx, hxi⟩ hav
        · rfl
      rw [issueBook_of_none_available L id hall]
      refine ⟨fun h => by simp at h, fun h => ?_⟩
      obtain ⟨before, b, after, hf, hb⟩ := h
      exact absurd ⟨b, by rw [hf.1]; simp, hb⟩ hav
  · intro hn
    by_cases hav : ∃ x ∈ L.books, x.issued = false
    · rw [issueBook_of_available L id hav]
      exact hnodup hn
    · have hall : ∀ x ∈ L.books, x.issued = true := by
        intro x hx
        cases hxi : x.issued
        · exact absurd ⟨x, hx, hxi⟩ hav
        · rfl
      rw [issueBook_of_none_available L id hall]
      refine ⟨fun h => by simp at h, fun h => ?_⟩
      obtain ⟨b, hb, _, hbi⟩ := h
      exact absurd ⟨b, hb, hbi⟩ hav

/-- C4 amended, at a concrete state: issuing the available record 2 sets
its flag and appends the entry `2,Issued` to an openable history file. -/
theorem issue_return_exclusive_witness :
    (issueBook ⟨[⟨1, "A".toList, "X".toList, true⟩, ⟨2, "B".toList, "Y".toList, false⟩],
        [], "1,Issued\n".toList, true, true⟩ 2).1 = IssueResult.success
    ∧ (issueBook ⟨[⟨1, "A".toList, "X".toList, true⟩, ⟨2, "B".toList, "Y".toList, false⟩],
        [], "1,Issued\n".toList, true, true⟩ 2).2.books
        = [⟨1, "A".toList, "X".toList, true⟩] ++ [⟨2, "B".toList, "Y".toList, true⟩]
    ∧ (issueBook ⟨[⟨1, "A".toList, "X".toList, true⟩, ⟨2, "B".toList, "Y".toList, false⟩],
        [], "1,Issued\n".toList, true, true⟩ 2).2.history
        = "1,Issued\n".toList ++ historyEntry 2 "Issued".toList :=
  (issue_return_exclusive ⟨[⟨1, "A".toList, "X".toList, true⟩,
      ⟨2, "B".toList, "Y".toList, false⟩], [], "1,Issued\n".toList, true, true⟩ 2).1.2.2.1
    [⟨1, "A".toList, "X".toList, true⟩] ⟨2, "B".toList, "Y".toList, false⟩ []
    ⟨rfl, rfl, by decide⟩ rfl

/-! ## C2: the invariants along every run -/

theorem catalogInv_replace {p q : List Book} {b c : Book} (h : CatalogInv (p ++ b :: q))
    (hid : c.id = b.id) (ht : c.title ≠ []) (ha : c.author ≠ []) :
    CatalogInv (p ++ c :: q) := by
  obtain ⟨hn, hv⟩ := h
  constructor
  · simpa [hid] using hn
  · intro x hx
    rcases List.mem_append.1 hx with hx | hx
    · exact hv x (by simp [hx])
    · rcases List.mem_cons.1 hx with rfl | hx
      · exact ⟨by rw [hid]; exact (hv b (by simp)).1, ht, ha⟩
      · exact hv x (by simp [hx])

theorem catalogInv_remove {p q : List Book} {b : Book} (h : CatalogInv (p ++ b :: q)) :
    CatalogInv (p ++ q) := by
  obtain ⟨hn, hv⟩ := h
  constructor
  · have hs : List.Sublist ((p ++ q).map Book.id) ((p ++ b :: q).map Book.id) := by
      apply List.Sublist.map
      exact List.Sublist.append (List.Sublist.refl p) (List.sublist_cons_self b q)
    exact hn.sublist hs
  · intro x hx
    rcases List.mem_append.1 hx with hx | hx
    · exact hv x (by simp [hx])
    · exact hv x (by simp [hx])

theorem catalogInv_append {books : List Book} {b : Book} (h : CatalogInv books)
    (hid : 0 < b.id) (ht : b.title ≠ []) (ha : b.author ≠ [])
    (hnew : ∀ x ∈ books, x.id ≠ b.id) : CatalogInv (books ++ [b]) := by
  obtain ⟨hn, hv⟩ := h
  constructor
  · rw [List.map_append, List.map_singleton]
    refine List.Nodup.append hn (List.nodup_singleton _) ?_
    intro i hi hi2
    rw [List.mem_singleton] at hi2
    obtain ⟨x, hx, rfl⟩ := List.mem_map.1 hi
    exact hnew x hx hi2
  · intro x hx
    rcases List.mem_append.1 hx with hx | hx
    · exact hv x hx
    · rw [List.mem_singleton] at hx
      subst hx
      exact ⟨hid, ht, ha⟩

theorem step_preserves_inv (L : Library) (op : Op) (h : CatalogInv L.books) :
    CatalogInv (step L op).books := by
  cases op with
  | addBook b =>
    show CatalogInv (L.addBook b).2.books
    unfold Library.addBook
    by_cases h1 : (b.title.isEmpty || b.author.isEmpty || decide (b.id ≤ 0)) = true
    · rw [if_pos h1]
      exact h
    · rw [if_neg h1]
      simp only [Bool.or_eq_true, List.isEmpty_iff, decide_eq_true_eq, not_or, not_le] at h1
      by_cases h2 : L.idExists b.id = true
      · rw [if_pos h2]
        exact h
      · rw [if_neg h2]
        simp only [saveBooks_books]
        have hnew : ∀ x ∈ L.books, x.id ≠ b.id :=
          (idExists_eq_false_iff b.id L.books).1 (by simpa [Library.idExists] using h2)
        exact catalogInv_append h h1.2 h1.1.1 h1.1.2 hnew
  | updateBook id title author =>
    show CatalogInv (L.updateBook id title author).2.books
    by_cases hex : ∃ x ∈ L.books, x.id = id
    · obtain ⟨p, c, q, hf⟩ := exists_firstWithId id L.books hex
      have hu := updateLoop_of_first title author hf
      unfold Library.updateBook
      rw [hu]
      simp only [saveBooks_books]
      rw [hf.1] at h
      have hc := h.2 c (by simp)
      refine catalogInv_replace (b := c) h rfl ?_ ?_
      · show (if title = [] then c.title else title) ≠ []
        split
        · exact hc.2.1
        · assumption
      · show (if author = [] then c.author else author) ≠ []
        split
        · exact hc.2.2
        · assumption
    · have hno : ∀ x ∈ L.books, x.id ≠ id := fun x hx hxid => hex ⟨x, hx, hxid⟩
      have hu := (updateLoop_eq_none_iff id title author L.books).2 hno
      unfold Library.updateBook
      rw [hu]
      exact h
  | deleteBook id =>
    show CatalogInv (L.deleteBook id).2.books
    by_cases hex : ∃ x ∈ L.books, x.id = id
    · obtain ⟨p, c, q, hf⟩ := exists_firstWithId id L.books hex
      have he := eraseLoop_of_first hf
      unfold Library.deleteBook
      rw [he]
      simp only [saveBooks_books]
      rw [hf.1] at h
      exact catalogInv_remove h
    · have hno : ∀ x ∈ L.books, x.id ≠ id := fun x hx hxid => hex ⟨x, hx, hxid⟩
      have he := (eraseLoop_eq_none_iff id L.books).2 hno
      unfold Library.deleteBook
      rw [he]
      exact h
  | issue id =>
    show CatalogInv (issueBook L id).2.books
    unfold issueBook
    split
    · exact h
    by_cases hex : ∃ x ∈ L.books, x.id = id
    · obtain ⟨p, c, q, hf⟩ := exists_firstWithId id L.books hex
      have hfind : L.findBook id = some (p, c, q) := findBook_of_first hf
      unfold issueRecord
      rw [hfind]
      simp only
      split
      · exact h
      · simp only [logHistory_books, saveBooks_books]
        rw [hf.1] at h
        have hc := h.2 c (by simp)
        exact catalogInv_replace h rfl hc.2.1 hc.2.2
    · have hno : ∀ x ∈ L.books, x.id ≠ id := fun x hx hxid => hex ⟨x, hx, hxid⟩
      have hfind : L.findBook id = none := (findBook_eq_none_iff id L.books).2 hno
      unfold issueRecord
      rw [hfind]
      exact h
  | giveBack id =>
    show CatalogInv (returnBook L id).2.books
    by_cases hex : ∃ x ∈ L.books, x.id = id
    · obtain ⟨p, c, q, hf⟩ := exists_firstWithId id L.books hex
      have hfind : L.findBook id = some (p, c, q) := findBook_of_first hf
      unfold returnBook
      rw [hfind]
      simp only
      split
      · exact h
      · simp only [logHistory_books, saveBooks_books]
        rw [hf.1] at h
        have hc := h.2 c (by simp)
        exact catalogInv_replace h rfl hc.2.1 hc.2.2
    · have hno : ∀ x ∈ L.books, x.id ≠ id := fun x hx hxid => hex ⟨x, hx, hxid⟩
      have hfind : L.findBook id = none := (findBook_eq_none_iff id L.books).2 hno
      unfold returnBook
      rw [hfind]
      exact h

theorem run_preserves_inv (ops : List Op) (L : Library) (h : CatalogInv L.books) :
    CatalogInv (run L ops).books := by
  induction ops generalizing L with
  | nil => exact h
  | cons op rest ih =>
    show CatalogInv (run (step L op) rest).books
    exact ih (step L op) (step_preserves_inv L op h)

/-- C2. Starting from a library without records, in any environment (any
content of the two files, openable or not), after every finite sequence of
`addBook`, `updateBook`, `deleteBook`, issue and return calls with
arbitrary arguments, the ids of the vector are pairwise distinct, every id
is positive, and no record has an empty title or an empty author. -/
theorem reachable_invariant (file history : Str) (fileOpens historyOpens : Bool)
    (ops : List Op) :
    (((run (emptyLibrary file history fileOpens historyOpens) ops).books.map Book.id).Nodup
      ∧ ∀ b ∈ (run (emptyLibrary file history fileOpens historyOpens) ops).books,
          0 < b.id ∧ b.title ≠ [] ∧ b.author ≠ []) :=
  run_preserves_inv ops (emptyLibrary file history fileOpens historyOpens)
    ⟨List.nodup_nil, fun _ hb => absurd hb (List.not_mem_nil _)⟩

/-! ## C9: `searchBooks` -/

theorem findFrom_isSome_iff (needle hay : Str) (pos : Nat) :
    (findFrom needle hay pos).isSome = true ↔ List.IsInfix needle hay := by
  induction hay generalizing pos with
  | nil =>
    unfold findFrom
    by_cases h : needle.isPrefixOf [] = true
    · rw [if_pos h]
      have := List.isPrefixOf_iff_prefix.1 h
      simp [List.prefix_nil.1 this]
    · rw [if_neg h]
      constructor
      · intro h2
        simp at h2
      · intro h2
        exfalso
        apply h
        rw [List.infix_nil.1 h2]
        rfl
  | cons c cs ih =>
    unfold findFrom
    rw [List.infix_cons_iff]
    by_cases h : needle.isPrefixOf (c :: cs) = true
    · rw [if_pos h]
      simp only [Option.isSome_some, true_iff]
      exact Or.inl (List.isPrefixOf_iff_prefix.1 h)
    · rw [if_neg h, ih]
      constructor
      · exact Or.inr
      · rintro (h2 | h2)
        · exact absurd (List.isPrefixOf_iff_prefix.2 h2) h
        · exact h2

theorem find_isSome_iff (hay needle : Str) :
    (find hay needle).isSome = true ↔ List.IsInfix needle hay :=
  findFrom_isSome_iff needle hay 0

theorem searchLoop_eq_filter (term termLower : Str) (books result : List Book) :
    searchLoop term termLower books result
      = result ++ books.filter (fun b =>
          decide (List.IsInfix termLower (lowerStr b.title)
            ∨ List.IsInfix termLower (lowerStr b.author) ∨ to_string b.id = term)) := by
  induction books generalizing result with
  | nil => simp [searchLoop]
  | cons b bs ih =>
    unfold searchLoop
    simp only [Bool.or_eq_true, find_isSome_iff, decide_eq_true_eq]
    by_cases h : (List.IsInfix termLower (lowerStr b.title)
        ∨ List.IsInfix termLower (lowerStr b.author)) ∨ to_string b.id = term
    · rw [if_pos h, ih, List.filter_cons]
      have h2 : List.IsInfix termLower (lowerStr b.title)
          ∨ List.IsInfix termLower (lowerStr b.author) ∨ to_string b.id = term := by
        rcases h with (h | h) | h
        · exact Or.inl h
        · exact Or.inr (Or.inl h)
        · exact Or.inr (Or.inr h)
      simp [h2]
    · rw [if_neg h, ih, List.filter_cons]
      have h2 : ¬ (List.IsInfix termLower (lowerStr b.title)
          ∨ List.IsInfix termLower (lowerStr b.author) ∨ to_string b.id = term) := by
        intro h3
        apply h
        rcases h3 with h3 | h3 | h3
        · exact Or.inl (Or.inl h3)
        · exact Or.inl (Or.inr h3)
        · exact Or.inr h3
      simp [h2]

/-- C9. `searchBooks(term)` is the vector filtered, in its order, by: the
lower-cased term is a substring of the lower-cased title, or of the
lower-cased author, or the decimal rendering of the id is the term itself.
In particular the empty term returns the whole vector, and the term `42`
returns every record whose id is 42, whatever its title and author. -/
theorem searchBooks_spec (L : Library) (term : Str) :
    L.searchBooks term
        = L.books.filter (fun b =>
            decide (List.IsInfix (lowerStr term) (lowerStr b.title)
              ∨ List.IsInfix (lowerStr term) (lowerStr b.author) ∨ to_string b.id = term))
    ∧ L.searchBooks [] = L.books
    ∧ ∀ b ∈ L.books, b.id = 42 → b ∈ L.searchBooks "42".toList := by
  refine ⟨?_, ?_, ?_⟩
  · unfold Library.searchBooks
    rw [searchLoop_eq_filter]
    simp
  · unfold Library.searchBooks
    rw [searchLoop_eq_filter]
    simp [lowerStr]
  · intro b hb h42
    unfold Library.searchBooks
    rw [searchLoop_eq_filter]
    simp only [List.nil_append, List.mem_filter, decide_eq_true_eq]
    refine ⟨hb, Or.inr (Or.inr ?_)⟩
    rw [h42]
    decide

/-- C9, at a concrete state: the term `42` finds the record with the id 42
whose title and author do not contain `42`. -/
theorem searchBooks_spec_witness :
    (⟨42, "Dune".toList, "Herbert".toList, false⟩ : Book)
      ∈ (⟨[⟨7, "Emma".toList, "Austen".toList, false⟩,
            ⟨42, "Dune".toList, "Herbert".toList, false⟩], [], [], true, true⟩ : Library).searchBooks
          "42".toList :=
  (searchBooks_spec ⟨[⟨7, "Emma".toList, "Austen".toList, false⟩,
      ⟨42, "Dune".toList, "Herbert".toList, false⟩], [], [], true, true⟩ "42".toList).2.2
    ⟨42, "Dune".toList, "Herbert".toList, false⟩ (by simp) rfl

/-! ## Facts about `to_string`, `stoi` and `tolower` -/

theorem digitChar_toNat (k : Nat) (h : k < 10) : (Nat.digitChar k).toNat = 48 + k := by
  interval_cases k <;> rfl

theorem digitChar_isdigit (k : Nat) (h : k < 10) : isdigit (Nat.digitChar k) = true := by
  interval_cases k <;> rfl

theorem digitsValue_append (acc : Nat) (l : Str) (c : Char) :
    digitsValue acc (l ++ [c]) = 10 * digitsValue acc l + (c.toNat - 48) := by
  simp [digitsValue, List.foldl_append]

theorem toDigitsCore_spec (fuel : Nat) : ∀ (n : Nat) (ds : Str), n < fuel →
    ∃ l : Str, Nat.toDigitsCore 10 fuel n ds = l ++ ds ∧ l ≠ []
      ∧ (∀ c ∈ l, isdigit c = true) ∧ digitsValue 0 l = n := by
  induction fuel with
  | zero => intro n ds h; omega
  | succ f ih =>
    intro n ds h
    unfold Nat.toDigitsCore
    simp only
    have hmod : n % 10 < 10 := Nat.mod_lt _ (by decide)
    by_cases h0 : n / 10 = 0
    · rw [if_pos h0]
      refine ⟨[Nat.digitChar (n % 10)], rfl, by simp, ?_, ?_⟩
      · intro c hc
        rw [List.mem_singleton] at hc
        rw [hc]
        exact digitChar_isdigit _ hmod
      · simp only [digitsValue, List.foldl_cons, List.foldl_nil, digitChar_toNat _ hmod]
        omega
    · rw [if_neg h0]
      have hlt : n / 10 < f := by omega
      obtain ⟨l, hl, hne, hd, hv⟩ := ih (n / 10) (Nat.digitChar (n % 10) :: ds) hlt
      refine ⟨l ++ [Nat.digitChar (n % 10)], by rw [hl]; simp, by simp, ?_, ?_⟩
      · intro c hc
        rcases List.mem_append.1 hc with hc | hc
        · exact hd c hc
        · rw [List.mem_singleton] at hc
          rw [hc]
          exact digitChar_isdigit _ hmod
      · rw [digitsValue_append, hv, digitChar_toNat _ hmod]
        omega

theorem toDigits_spec (n : Nat) :
    Nat.toDigits 10 n ≠ [] ∧ (∀ c ∈ Nat.toDigits 10 n, isdigit c = true)
      ∧ digitsValue 0 (Nat.toDigits 10 n) = n := by
  obtain ⟨l, hl, hne, hd, hv⟩ := toDigitsCore_spec (n + 1) n [] (Nat.lt_succ_self n)
  unfold Nat.toDigits
  rw [hl, List.append_nil]
  exact ⟨hne, hd, hv⟩

theorem tolower_rigid (c d : Char) (hd : d.toNat < 97 ∨ 122 < d.toNat) (h : tolower c = d) :
    c = d := by
  unfold tolower at h
  by_cases hc : 65 ≤ c.toNat ∧ c.toNat ≤ 90
  · rw [if_pos hc] at h
    exfalso
    obtain ⟨h1, h2⟩ := hc
    rw [← h] at hd
    generalize hk : c.toNat = k at h1 h2 hd
    interval_cases k <;> revert hd <;> decide
  · rw [if_neg hc] at h
    exact h

theorem tolower_fixed (d : Char) (hd : d.toNat < 65 ∨ 90 < d.toNat) : tolower d = d := by
  unfold tolower
  rw [if_neg]
  omega

theorem to_string_chars (n : Int) : ∀ c ∈ to_string n, c = '-' ∨ isdigit c = true := by
  intro c hc
  unfold to_string at hc
  split at hc
  · rcases List.mem_cons.1 hc with hc | hc
    · exact Or.inl hc
    · exact Or.inr ((toDigits_spec _).2.1 c hc)
  · exact Or.inr ((toDigits_spec _).2.1 c hc)

theorem to_string_chars_range (n : Int) : ∀ c ∈ to_string n, c.toNat < 65 := by
  intro c hc
  rcases to_string_chars n c hc with h | h
  · rw [h]
    decide
  · simp only [isdigit, Bool.and_eq_true, decide_eq_true_eq] at h
    omega

theorem lowerStr_fixed (w : Str) (hw : ∀ c ∈ w, c.toNat < 65) : lowerStr w = w := by
  induction w with
  | nil => rfl
  | cons c cs ih =>
    have h1 : tolower c = c := tolower_fixed c (Or.inl (hw c (by simp)))
    have h2 := ih (fun x hx => hw x (by simp [hx]))
    unfold lowerStr at h2 ⊢
    rw [List.map_cons, h1, h2]

theorem lowerStr_rigid (t w : Str) (hw : ∀ c ∈ w, c.toNat < 65) (h : lowerStr t = w) :
    t = w := by
  induction t generalizing w with
  | nil =>
    rw [← h]
    rfl
  | cons c cs ih =>
    cases w with
    | nil => simp [lowerStr] at h
    | cons d ds =>
      simp only [lowerStr, List.map_cons, List.cons.injEq] at h
      have hd : d.toNat < 65 := hw d (by simp)
      have h1 : c = d := tolower_rigid c d (Or.inl (by omega)) h.1
      have h2 : cs = ds := ih ds (fun x hx => hw x (by simp [hx])) h.2
      rw [h1, h2]

theorem to_string_eq_of_lower_eq (n : Int) (s t : Str) (h : lowerStr s = lowerStr t)
    (hs : to_string n = s) : to_string n = t := by
  have hfix := lowerStr_fixed (to_string n) (to_string_chars_range n)
  have h2 : lowerStr t = to_string n := by
    rw [← h, ← hs, hfix]
  exact (lowerStr_rigid t (to_string n) (to_string_chars_range n) h2).symm

/-! ## C6: case-insensitivity of `searchBooks` -/

/-- C6. Two search terms that are equal after lower-casing every character
give the same result of `searchBooks`, the records and their order, on
every vector; the comparison of the id with the term as typed does not
break this, because a decimal rendering has no letter. -/
theorem searchBooks_case_insensitive (L : Library) (s t : Str)
    (h : lowerStr s = lowerStr t) : L.searchBooks s = L.searchBooks t := by
  unfold Library.searchBooks
  rw [searchLoop_eq_filter, searchLoop_eq_filter, h]
  congr 1
  apply List.filter_congr
  intro b _
  have hiff : to_string b.id = s ↔ to_string b.id = t :=
    ⟨to_string_eq_of_lower_eq b.id s t h, to_string_eq_of_lower_eq b.id t s h.symm⟩
  simp only [hiff]

/-- C6, at a concrete state: `smith` and `SMITH` give the same result. -/
theorem searchBooks_case_insensitive_witness :
    (⟨[⟨1, "Money".toList, "Adam Smith".toList, false⟩,
        ⟨2, "Emma".toList, "Austen".toList, true⟩], [], [], true, true⟩ : Library).searchBooks
        "smith".toList
      = (⟨[⟨1, "Money".toList, "Adam Smith".toList, false⟩,
        ⟨2, "Emma".toList, "Austen".toList, true⟩], [], [], true, true⟩ : Library).searchBooks
        "SMITH".toList :=
  searchBooks_case_insensitive _ "smith".toList "SMITH".toList (by decide)

/-! ## The order of `std::string` and the map operation -/

theorem char_eq_of_toNat_eq {a b : Char} (h : a.toNat = b.toNat) : a = b := by
  rw [← Char.ofNat_toNat a, ← Char.ofNat_toNat b, h]

theorem char_lt_iff (a b : Char) : a < b ↔ a.toNat < b.toNat := by
  exact Iff.rfl

theorem strLt_irrefl (a : Str) : strLt a a = false := by
  induction a with
  | nil => rfl
  | cons c cs ih => simp [strLt, ih]

theorem strLt_trans {a b c : Str} (h1 : strLt a b = true) (h2 : strLt b c = true) :
    strLt a c = true := by
  induction a generalizing b c with
  | nil =>
    cases b with
    | nil => simp [strLt] at h1
    | cons y ys =>
      cases c with
      | nil => simp [strLt] at h2
      | cons z zs => rfl
  | cons x xs ih =>
    cases b with
    | nil => simp [strLt] at h1
    | cons y ys =>
      cases c with
      | nil => simp [strLt] at h2
      | cons z zs =>
        simp only [strLt, Bool.or_eq_true, decide_eq_true_eq, Bool.and_eq_true] at h1 h2 ⊢
        rcases h1 with h1 | ⟨h1, h1r⟩
        · rcases h2 with h2 | ⟨h2, _⟩
          · exact Or.inl (by omega)
          · subst h2
            exact Or.inl h1
        · subst h1
          rcases h2 with h2 | ⟨h2, h2r⟩
          · exact Or.inl h2
          · exact Or.inr ⟨h2, ih h1r h2r⟩

theorem strLt_trichotomy {a b : Str} (h1 : strLt a b = false) (h2 : strLt b a = false) :
    a = b := by
  induction a generalizing b with
  | nil =>
    cases b with
    | nil => rfl
    | cons y ys => simp [strLt] at h1
  | cons x xs ih =>
    cases b with
    | nil => simp [strLt] at h2
    | cons y ys =>
      simp only [strLt, Bool.or_eq_false_iff, decide_eq_false_iff_not, Bool.and_eq_false_iff,
        not_lt] at h1 h2
      have hxy : x = y := char_eq_of_toNat_eq (by omega)
      subst hxy
      have h1r : strLt xs ys = false := by
        rcases h1.2 with h | h
        · exact absurd rfl h
        · exact h
      have h2r : strLt ys xs = false := by
        rcases h2.2 with h | h
        · exact absurd rfl h
        · exact h
      rw [ih h1r h2r]

theorem strLt_iff_lt (a b : Str) : strLt a b = true ↔ a < b := by
  induction a generalizing b with
  | nil =>
    cases b with
    | nil =>
      simp only [strLt]
      constructor
      · intro h; cases h
      · intro h; cases h
    | cons y ys =>
      simp only [strLt, true_iff]
      exact List.Lex.nil
  | cons x xs ih =>
    cases b with
    | nil =>
      simp only [strLt]
      constructor
      · intro h; cases h
      · intro h; cases h
    | cons y ys =>
      simp only [strLt, Bool.or_eq_true, decide_eq_true_eq, Bool.and_eq_true]
      constructor
      · rintro (h | ⟨h, hr⟩)
        · exact List.Lex.rel ((char_lt_iff x y).2 h)
        · subst h
          exact List.Lex.cons ((ih ys).1 hr)
      · intro h
        cases h with
        | rel h => exact Or.inl ((char_lt_iff x y).1 h)
        | cons h => exact Or.inr ⟨rfl, (ih ys).2 h⟩

theorem strLt_ne {a b : Str} (h : strLt a b = true) : a ≠ b := by
  intro hab
  rw [hab, strLt_irrefl] at h
  cases h

theorem mapIncr_keys (a : Str) (m : List (Str × Int)) (k : Str) :
    k ∈ (mapIncr a m).map Prod.fst ↔ k = a ∨ k ∈ m.map Prod.fst := by
  induction m with
  | nil => simp [mapIncr]
  | cons e rest ih =>
    obtain ⟨k0, v0⟩ := e
    unfold mapIncr
    by_cases h1 : strLt a k0 = true
    · rw [if_pos h1]
      simp
    · rw [if_neg h1]
      by_cases h2 : strLt k0 a = true
      · rw [if_pos h2]
        rw [List.map_cons, List.mem_cons, ih, List.map_cons, List.mem_cons]
        tauto
      · rw [if_neg h2]
        have hak : a = k0 :=
          strLt_trichotomy (Bool.eq_false_iff.2 h1) (Bool.eq_false_iff.2 h2)
        subst hak
        simp

theorem mapIncr_sorted (a : Str) (m : List (Str × Int)) (h : KeysSorted m) :
    KeysSorted (mapIncr a m) := by
  induction m with
  | nil => simp [mapIncr, KeysSorted]
  | cons e rest ih =>
    obtain ⟨k0, v0⟩ := e
    unfold KeysSorted at h
    rw [List.map_cons, List.pairwise_cons] at h
    obtain ⟨hk0, hrest⟩ := h
    unfold mapIncr
    by_cases h1 : strLt a k0 = true
    · rw [if_pos h1]
      unfold KeysSorted
      rw [List.map_cons, List.map_cons, List.pairwise_cons, List.pairwise_cons]
      refine ⟨?_, hk0, hrest⟩
      intro k hk
      rcases List.mem_cons.1 hk with hk | hk
      · rw [hk]
        exact h1
      · exact strLt_trans h1 (hk0 k hk)
    · rw [if_neg h1]
      by_cases h2 : strLt k0 a = true
      · rw [if_pos h2]
        unfold KeysSorted
        rw [List.map_cons, List.pairwise_cons]
        refine ⟨?_, ih hrest⟩
        intro k hk
        rcases (mapIncr_keys a rest k).1 hk with hk | hk
        · rw [hk]
          exact h2
        · exact hk0 k hk
      · rw [if_neg h2]
        unfold KeysSorted
        rw [List.map_cons, List.pairwise_cons]
        exact ⟨hk0, hrest⟩

theorem mapIncr_entry (a : Str) (m : List (Str × Int)) (h : KeysSorted m) (k : Str) (v : Int)
    (hkv : (k, v) ∈ mapIncr a m) :
    (k ≠ a ∧ (k, v) ∈ m) ∨ (k = a ∧ v = 1 ∧ a ∉ m.map Prod.fst)
      ∨ (k = a ∧ ∃ v0, (a, v0) ∈ m ∧ v = v0 + 1) := by
  induction m with
  | nil =>
    simp only [mapIncr, List.mem_singleton, Prod.mk.injEq] at hkv
    exact Or.inr (Or.inl ⟨hkv.1, hkv.2, by simp⟩)
  | cons e rest ih =>
    obtain ⟨k0, v0⟩ := e
    unfold KeysSorted at h
    rw [List.map_cons, List.pairwise_cons] at h
    obtain ⟨hk0, hrest⟩ := h
    unfold mapIncr at hkv
    by_cases h1 : strLt a k0 = true
    · rw [if_pos h1] at hkv
      have hnot : a ∉ ((k0, v0) :: rest).map Prod.fst := by
        intro hmem
        rw [List.map_cons, List.mem_cons] at hmem
        rcases hmem with hmem | hmem
        · exact strLt_ne h1 hmem
        · exact strLt_ne (strLt_trans h1 (hk0 a hmem)) rfl
      rcases List.mem_cons.1 hkv with hkv | hkv
      · simp only [Prod.mk.injEq] at hkv
        exact Or.inr (Or.inl ⟨hkv.1, hkv.2, hnot⟩)
      · refine Or.inl ⟨?_, hkv⟩
        intro hka
        apply hnot
        rw [← hka]
        exact List.mem_map_of_mem Prod.fst hkv
    · rw [if_neg h1] at hkv
      by_cases h2 : strLt k0 a = true
      · rw [if_pos h2] at hkv
        rcases List.mem_cons.1 hkv with hkv | hkv
        · simp only [Prod.mk.injEq] at hkv
          refine Or.inl ⟨?_, ?_⟩
          · rw [hkv.1]
            exact strLt_ne h2
          · rw [hkv.1, hkv.2]
            exact List.mem_cons_self _ _
        · rcases ih hrest hkv with ⟨hne, hmem⟩ | ⟨hka, hv, hnot⟩ | ⟨hka, w, hw, hv⟩
          · exact Or.inl ⟨hne, List.mem_cons_of_mem _ hmem⟩
          · refine Or.inr (Or.inl ⟨hka, hv, ?_⟩)
            intro hmem
            rw [List.map_cons, List.mem_cons] at hmem
            rcases hmem with hmem | hmem
            · exact strLt_ne h2 hmem.symm
            · exact hnot hmem
          · exact Or.inr (Or.inr ⟨hka, w, List.mem_cons_of_mem _ hw, hv⟩)
      · rw [if_neg h2] at hkv
        have hak : a = k0 :=
          strLt_trichotomy (Bool.eq_false_iff.2 h1) (Bool.eq_false_iff.2 h2)
        subst hak
        rcases List.mem_cons.1 hkv with hkv | hkv
        · simp only [Prod.mk.injEq] at hkv
          exact Or.inr (Or.inr ⟨hkv.1, v0, List.mem_cons_self _ _, hkv.2⟩)
        · refine Or.inl ⟨?_, List.mem_cons_of_mem _ hkv⟩
          have hmem : k ∈ rest.map Prod.fst := List.mem_map_of_mem Prod.fst hkv
          exact (strLt_ne (hk0 k hmem)).symm

theorem countFold_spec (ks : List Str) :
    KeysSorted (ks.foldl (fun m k => mapIncr k m) [])
    ∧ (∀ k, k ∈ (ks.foldl (fun m k => mapIncr k m) []).map Prod.fst ↔ k ∈ ks)
    ∧ (∀ k v, (k, v) ∈ ks.foldl (fun m k => mapIncr k m) [] → v = (ks.count k : Int)) := by
  induction ks using List.reverseRecOn with
  | nil => simp [KeysSorted]
  | append_singleton l a ih =>
    obtain ⟨hs, hkeys, hvals⟩ := ih
    rw [List.foldl_append, List.foldl_cons, List.foldl_nil]
    refine ⟨mapIncr_sorted a _ hs, ?_, ?_⟩
    · intro k
      rw [mapIncr_keys, hkeys, List.mem_append, List.mem_singleton]
      tauto
    · intro k v hkv
      rw [List.count_append, List.count_singleton]
      rcases mapIncr_entry a _ hs k v hkv with ⟨hne, hmem⟩ | ⟨hka, hv, hnot⟩ | ⟨hka, w, hw, hv⟩
      · rw [hvals k v hmem]
        have : (a == k) = false := by simpa using fun h => hne h.symm
        simp [this]
      · subst hka
        rw [hkeys] at hnot
        rw [hv, List.count_eq_zero_of_not_mem hnot]
        simp
      · subst hka
        rw [hv, hvals k w hw]
        simp

theorem count_map_eq_countP (f : Book → Str) (k : Str) (books : List Book) :
    (books.map f).count k = books.countP (fun b => decide (f b = k)) := by
  induction books with
  | nil => rfl
  | cons b bs ih =>
    rw [List.map_cons, List.count_cons, List.countP_cons, ih]
    by_cases h : f b = k
    · simp [h]
    · simp [h]

theorem statsFold_spec (f : Book → Str) (books : List Book) :
    ((books.foldl (fun m b => mapIncr (f b) m) []).map Prod.fst).Pairwise (fun a b => a < b)
    ∧ (∀ k, k ∈ (books.foldl (fun m b => mapIncr (f b) m) []).map Prod.fst
        ↔ ∃ b ∈ books, f b = k)
    ∧ (∀ k v, (k, v) ∈ books.foldl (fun m b => mapIncr (f b) m) []
        → v = ((books.countP (fun b => decide (f b = k)) : Nat) : Int)) := by
  have hfold : books.foldl (fun m b => mapIncr (f b) m) []
      = (books.map f).foldl (fun m k => mapIncr k m) [] := by
    rw [List.foldl_map]
  rw [hfold]
  obtain ⟨hs, hkeys, hvals⟩ := countFold_spec (books.map f)
  refine ⟨?_, ?_, ?_⟩
  · exact List.Pairwise.imp (fun h => (strLt_iff_lt _ _).1 h) hs
  · intro k
    rw [hkeys, List.mem_map]
  · intro k v hkv
    rw [hvals k v hkv, count_map_eq_countP]

/-! ## C10: `getStatsByAuthor`, `getStatsByTitle` -/

/-- C10. The entries of the map returned by `getStatsByAuthor` have their
keys in strictly increasing lexicographic order, the keys are exactly the
authors occurring in the vector, and every key is mapped to the number of
records with that author; likewise `getStatsByTitle` with the titles; and
three records by Herbert, Herbert, Orwell give Herbert 2, Orwell 1. -/
theorem getStats_spec (L : Library) :
    (((L.getStatsByAuthor.map Prod.fst).Pairwise (fun a b => a < b)
      ∧ (∀ k, k ∈ L.getStatsByAuthor.map Prod.fst ↔ ∃ b ∈ L.books, b.author = k)
      ∧ (∀ k v, (k, v) ∈ L.getStatsByAuthor
          → v = ((L.books.countP (fun b => decide (b.author = k)) : Nat) : Int)))
    ∧ ((L.getStatsByTitle.map Prod.fst).Pairwise (fun a b => a < b)
      ∧ (∀ k, k ∈ L.getStatsByTitle.map Prod.fst ↔ ∃ b ∈ L.books, b.title = k)
      ∧ (∀ k v, (k, v) ∈ L.getStatsByTitle
          → v = ((L.books.countP (fun b => decide (b.title = k)) : Nat) : Int))))
    ∧ ∀ (i1 i2 i3 : Int) (t1 t2 t3 : Str) (f1 f2 f3 : Bool),
        ({ L with books := [⟨i1, t1, "Herbert".toList, f1⟩, ⟨i2, t2, "Herbert".toList, f2⟩,
            ⟨i3, t3, "Orwell".toList, f3⟩] } : Library).getStatsByAuthor
          = [("Herbert".toList, 2), ("Orwell".toList, 1)] :=
  ⟨⟨statsFold_spec Book.author L.books, statsFold_spec Book.title L.books⟩,
    fun _ _ _ _ _ _ _ _ _ => by
      simp [Library.getStatsByAuthor, mapIncr, strLt]⟩

/-- C10, at a concrete state: the entry of Herbert carries the count of the
records by Herbert. -/
theorem getStats_spec_witness :
    (2 : Int) = ((([⟨1, "Dune".toList, "Herbert".toList, false⟩,
        ⟨2, "Dune II".toList, "Herbert".toList, true⟩,
        ⟨3, "1984".toList, "Orwell".toList, false⟩] : List Book).countP
          (fun b => decide (b.author = "Herbert".toList)) : Nat) : Int) :=
  (getStats_spec ⟨[⟨1, "Dune".toList, "Herbert".toList, false⟩,
      ⟨2, "Dune II".toList, "Herbert".toList, true⟩,
      ⟨3, "1984".toList, "Orwell".toList, false⟩], [], [], true, true⟩).1.1.2.2
    "Herbert".toList 2 (by decide)

/-! ## Saving and loading -/

theorem stoi_to_string (n : Int) (h : isInt n) : stoi (to_string n) = Except.ok n := by
  obtain ⟨hne, hdig, hval⟩ := toDigits_spec n.natAbs
  obtain ⟨hne2, hdig2, hval2⟩ := toDigits_spec n.toNat
  unfold to_string
  by_cases hneg : n < 0
  · rw [if_pos hneg]
    have htw : List.takeWhile isdigit (Nat.toDigits 10 n.natAbs) = Nat.toDigits 10 n.natAbs :=
      List.takeWhile_eq_self_iff.2 hdig
    have hv : -(n.natAbs : Int) = n := by omega
    have hdw : List.dropWhile isspace ('-' :: Nat.toDigits 10 n.natAbs)
        = '-' :: Nat.toDigits 10 n.natAbs := by
      apply List.dropWhile_cons_of_neg
      decide
    have hsign : readSign ('-' :: Nat.toDigits 10 n.natAbs)
        = (true, Nat.toDigits 10 n.natAbs) := rfl
    unfold stoi
    simp only [hdw, hsign, htw, if_neg hne, hval, hv, if_pos h, if_true]
  · rw [if_neg hneg]
    have htw : List.takeWhile isdigit (Nat.toDigits 10 n.toNat) = Nat.toDigits 10 n.toNat :=
      List.takeWhile_eq_self_iff.2 hdig2
    have hv : (n.toNat : Int) = n := by omega
    cases hd : Nat.toDigits 10 n.toNat with
    | nil => exact absurd hd hne2
    | cons d ds =>
      have hdd : isdigit d = true := hdig2 d (by rw [hd]; simp)
      have hsp : ¬ isspace d = true := by
        intro hs
        simp only [isdigit, Bool.and_eq_true, decide_eq_true_eq] at hdd
        simp only [isspace, Bool.or_eq_true, decide_eq_true_eq] at hs
        rcases hs with ((((hs | hs) | hs) | hs) | hs) | hs <;>
          · rw [hs] at hdd
            revert hdd
            decide
      have hminus : d ≠ '-' := by
        intro hs
        rw [hs] at hdd
        revert hdd
        decide
      have hplus : d ≠ '+' := by
        intro hs
        rw [hs] at hdd
        revert hdd
        decide
      have hdw : List.dropWhile isspace (d :: ds) = d :: ds :=
        List.dropWhile_cons_of_neg hsp
      rw [hd] at htw hval2
      have hsign : readSign (d :: ds) = (false, d :: ds) := by
        unfold readSign
        split
        · next r heq =>
          simp only [List.cons.injEq] at heq
          exact absurd heq.1 hminus
        · next r heq =>
          simp only [List.cons.injEq] at heq
          exact absurd heq.1 hplus
        · rfl
      unfold stoi
      simp only [hdw, hsign, htw, hval2, hv, if_pos h]
      simp [h]

theorem getline_delim (delim : Char) (x rest : Str) (hx : delim ∉ x) :
    getline delim (x ++ delim :: rest) = some (x, rest) := by
  induction x with
  | nil => simp [getline]
  | cons c cs ih =>
    have hc : c ≠ delim := fun h => hx (by simp [h])
    have hcs : delim ∉ cs := fun h => hx (by simp [h])
    rw [List.cons_append, getline, if_neg hc, ih hcs]

theorem getfield_delim (delim : Char) (x rest : Str) (hx : delim ∉ x) :
    getfield delim (x ++ delim :: rest) = (x, rest) := by
  unfold getfield
  rw [getline_delim delim x rest hx]
  rfl

theorem fileLines_getline (s : Str) :
    fileLines s = match getline '\n' s with
      | none => []
      | some (line, rest) => line :: fileLines rest := by
  induction s with
  | nil => rfl
  | cons c cs ih =>
    by_cases hc : c = '\n'
    · simp only [fileLines, getline, if_pos hc]
    · simp only [fileLines, getline, if_neg hc]
      rw [ih]
      cases getline '\n' cs with
      | none => rfl
      | some r =>
        obtain ⟨line, rest⟩ := r
        rfl

theorem fileLines_line (line rest : Str) (h : '\n' ∉ line) :
    fileLines (line ++ '\n' :: rest) = line :: fileLines rest := by
  rw [fileLines_getline, getline_delim '\n' line rest h]

theorem writeBooks_acc (books : List Book) (acc : Str) :
    books.foldl (fun out b => out ++ bookLine b) acc = acc ++ writeBooks books := by
  induction books generalizing acc with
  | nil => simp [writeBooks]
  | cons b bs ih =>
    unfold writeBooks
    rw [List.foldl_cons, List.foldl_cons, ih, ih ([] ++ bookLine b)]
    simp

theorem writeBooks_cons (b : Book) (bs : List Book) :
    writeBooks (b :: bs) = recordText b ++ '\n' :: writeBooks bs := by
  have h : writeBooks (b :: bs) = bookLine b ++ writeBooks bs := by
    unfold writeBooks
    rw [List.foldl_cons, writeBooks_acc]
    simp [writeBooks]
  rw [h]
  simp [bookLine, recordText]

theorem to_string_no_delim (n : Int) : ',' ∉ to_string n ∧ '\n' ∉ to_string n := by
  constructor
  · intro h
    rcases to_string_chars n _ h with h2 | h2
    · revert h2
      decide
    · revert h2
      decide
  · intro h
    rcases to_string_chars n _ h with h2 | h2
    · revert h2
      decide
    · revert h2
      decide

theorem to_string_ne_nil (n : Int) : to_string n ≠ [] := by
  unfold to_string
  split
  · simp
  · exact (toDigits_spec _).1

theorem recordText_no_newline (b : Book) (h : CleanBook b) : '\n' ∉ recordText b := by
  obtain ⟨_, _, _, ht, ha⟩ := h
  have hid := (to_string_no_delim b.id).2
  unfold recordText
  intro hmem
  simp only [List.mem_append, List.mem_singleton] at hmem
  rcases hmem with (((((hm | hm) | hm) | hm) | hm) | hm) | hm
  · exact hid hm
  · revert hm; decide
  · exact ht hm
  · revert hm; decide
  · exact ha hm
  · revert hm; decide
  · cases hb : b.issued <;> rw [hb] at hm <;> revert hm <;> decide

theorem recordText_ne_nil (b : Book) : recordText b ≠ [] := by
  have := to_string_ne_nil b.id
  unfold recordText
  simp

theorem parseLine_recordText (b : Book) (h : CleanBook b) :
    parseLine (recordText b) = Except.ok b := by
  obtain ⟨hint, ht, ha, _, _⟩ := h
  have hid := (to_string_no_delim b.id).1
  have h1 : getfield ',' (recordText b)
      = (to_string b.id, b.title ++ ',' :: (b.author ++ ',' :: (if b.issued then ['1'] else ['0']))) := by
    have : recordText b = to_string b.id
        ++ ',' :: (b.title ++ ',' :: (b.author ++ ',' :: (if b.issued then ['1'] else ['0']))) := by
      simp [recordText]
    rw [this, getfield_delim ',' _ _ hid]
  have h4 : getfield ',' (if b.issued then ['1'] else ['0'])
      = ((if b.issued then ['1'] else ['0']), []) := by
    cases b.issued <;> rfl
  unfold parseLine
  simp only [h1, getfield_delim ',' _ _ ht, getfield_delim ',' _ _ ha, h4, stoi_to_string _ hint]
  cases b with
  | mk id title author issued =>
    cases issued <;> simp

theorem loadLoop_recordTexts (books acc : List Book) (h : ∀ b ∈ books, CleanBook b) :
    loadLoop (books.map recordText) acc = Except.ok (acc ++ books) := by
  induction books generalizing acc with
  | nil => simp [loadLoop]
  | cons b bs ih =>
    rw [List.map_cons, loadLoop, if_neg (recordText_ne_nil b),
      parseLine_recordText b (h b (by simp))]
    simp only
    rw [ih (acc ++ [b]) (fun x hx => h x (by simp [hx]))]
    simp

theorem fileLines_writeBooks (books : List Book) (h : ∀ b ∈ books, CleanBook b) :
    fileLines (writeBooks books) = books.map recordText := by
  induction books with
  | nil => rfl
  | cons b bs ih =>
    rw [writeBooks_cons, fileLines_line _ _ (recordText_no_newline b (h b (by simp))),
      ih (fun x hx => h x (by simp [hx])), List.map_cons]

theorem parseBooks_writeBooks (books : List Book) (h : ∀ b ∈ books, CleanBook b) :
    parseBooks (writeBooks books) = Except.ok books := by
  unfold parseBooks
  rw [fileLines_writeBooks books h, loadLoop_recordTexts books [] h]
  simp

theorem loadBooks_saveBooks (L : Library) (hopen : L.fileOpens = true)
    (h : ∀ b ∈ L.books, CleanBook b) : L.saveBooks.loadBooks = Except.ok L.saveBooks := by
  have hs : L.saveBooks = { L with file := writeBooks L.books } := by
    unfold Library.saveBooks
    simp [hopen]
  rw [hs]
  unfold Library.loadBooks
  simp only [hopen, Bool.not_true, Bool.false_eq_true, if_false]
  rw [parseBooks_writeBooks L.books h]

/-! ## C1: saving then loading -/

/-- C1, as stated, fails: a catalog of one record, without any comma, whose
title holds a newline is written as two lines, and `loadBooks` reads them
back as two other records. -/
theorem save_load_newline_counterexample :
    (∀ b ∈ ([⟨1, "x\n5".toList, "c".toList, false⟩] : List Book),
        isInt b.id ∧ ',' ∉ b.title ∧ ',' ∉ b.author)
    ∧ writeBooks [⟨1, "x\n5".toList, "c".toList, false⟩] = "1,x\n5,c,0\n".toList
    ∧ parseBooks (writeBooks [⟨1, "x\n5".toList, "c".toList, false⟩])
        = Except.ok [⟨1, "x".toList, [], false⟩, ⟨5, "c".toList, "0".toList, false⟩]
    ∧ parseBooks (writeBooks [⟨1, "x\n5".toList, "c".toList, false⟩])
        ≠ Except.ok [⟨1, "x\n5".toList, "c".toList, false⟩] := by
  decide

/-- C1, amended. For every catalog whose ids are machine integers and in
which no title and no author contains a comma or a newline, the text that
`saveBooks` writes is parsed by `loadBooks` into the same catalog: the same
records in the same order with the same id, title, author and flag. In a
library whose catalog file opens, `loadBooks` after `saveBooks` completes
and leaves the vector as it was. -/
theorem save_load_roundtrip (books : List Book)
    (h : ∀ b ∈ books, isInt b.id ∧ ',' ∉ b.title ∧ ',' ∉ b.author
      ∧ '\n' ∉ b.title ∧ '\n' ∉ b.author) :
    parseBooks (writeBooks books) = Except.ok books
    ∧ ∀ (file history : Str) (historyOpens : Bool),
        ((⟨books, file, history, true, historyOpens⟩ : Library).saveBooks).loadBooks
          = Except.ok ⟨books, writeBooks books, history, true, historyOpens⟩ :=
  ⟨parseBooks_writeBooks books h, fun file history historyOpens =>
    loadBooks_saveBooks ⟨books, file, history, true, historyOpens⟩ rfl h⟩

/-- C1 amended, at a concrete catalog: two records are written and read
back unchanged. -/
theorem save_load_roundtrip_witness :
    parseBooks (writeBooks [⟨1, "Dune".toList, "Frank Herbert".toList, true⟩,
        ⟨-2, [], "Orwell".toList, false⟩])
      = Except.ok [⟨1, "Dune".toList, "Frank Herbert".toList, true⟩,
        ⟨-2, [], "Orwell".toList, false⟩] :=
  (save_load_roundtrip [⟨1, "Dune".toList, "Frank Herbert".toList, true⟩,
    ⟨-2, [], "Orwell".toList, false⟩] (by decide)).1

/-! ## C7: the invariants after loading -/

/-- C7, as stated, fails: `loadBooks` completes on a file whose lines repeat
the id 7 and hold the id 0 with an empty title and an empty author, and the
loaded vector breaks each of the three invariants. -/
theorem load_invariant_counterexample :
    (⟨[], "7,Dune,Herbert,0\n7,Emma,Austen,1\n0,,,0\n".toList, [], true, true⟩ : Library).loadBooks
      = Except.ok ⟨[⟨7, "Dune".toList, "Herbert".toList, false⟩,
          ⟨7, "Emma".toList, "Austen".toList, true⟩, ⟨0, [], [], false⟩],
          "7,Dune,Herbert,0\n7,Emma,Austen,1\n0,,,0\n".toList, [], true, true⟩
    ∧ ¬ (([⟨7, "Dune".toList, "Herbert".toList, false⟩,
          ⟨7, "Emma".toList, "Austen".toList, true⟩, ⟨0, [], [], false⟩] : List Book).map
            Book.id).Nodup
    ∧ (∃ b ∈ ([⟨7, "Dune".toList, "Herbert".toList, false⟩,
          ⟨7, "Emma".toList, "Austen".toList, true⟩, ⟨0, [], [], false⟩] : List Book),
        ¬ 0 < b.id ∧ b.title = [] ∧ b.author = []) := by
  decide

/-- C7, amended. `loadBooks` does not validate what it reads; the invariants
hold after a load of what `saveBooks` wrote from a catalog that satisfies
them: for every library whose catalog file opens and whose vector has
pairwise distinct positive machine-integer ids and non-empty titles and
authors free of commas and newlines, `loadBooks` after `saveBooks`
completes, and the loaded vector has pairwise distinct ids, positive ids,
and no empty title or author. -/
theorem load_after_save_invariant (L : Library) (hopen : L.fileOpens = true)
    (hinv : (L.books.map Book.id).Nodup ∧ ∀ b ∈ L.books, 0 < b.id ∧ b.title ≠ [] ∧ b.author ≠ [])
    (h : ∀ b ∈ L.books, isInt b.id ∧ ',' ∉ b.title ∧ ',' ∉ b.author
      ∧ '\n' ∉ b.title ∧ '\n' ∉ b.author) :
    ∃ loaded : Library, L.saveBooks.loadBooks = Except.ok loaded
      ∧ (loaded.books.map Book.id).Nodup
      ∧ ∀ b ∈ loaded.books, 0 < b.id ∧ b.title ≠ [] ∧ b.author ≠ [] := by
  refine ⟨L.saveBooks, loadBooks_saveBooks L hopen h, ?_, ?_⟩
  · rw [saveBooks_books]
    exact hinv.1
  · rw [saveBooks_books]
    exact hinv.2

/-- C7 amended, at a concrete library. -/
theorem load_after_save_invariant_witness :
    ∃ loaded : Library,
      (Library.saveBooks ⟨[⟨1, "Dune".toList, "Herbert".toList, false⟩,
          ⟨2, "Emma".toList, "Austen".toList, true⟩], [], [], true, true⟩).loadBooks
        = Except.ok loaded
      ∧ (loaded.books.map Book.id).Nodup
      ∧ ∀ b ∈ loaded.books, 0 < b.id ∧ b.title ≠ [] ∧ b.author ≠ [] :=
  load_after_save_invariant ⟨[⟨1, "Dune".toList, "Herbert".toList, false⟩,
      ⟨2, "Emma".toList, "Austen".toList, true⟩], [], [], true, true⟩ rfl
    (by decide) (by decide)

end LibraryManagement
